import Mathlib

/-!
Verification of the DeskFlow storage and data-integrity layer.

This file gives a shallow embedding, in Lean 4, of the parts of the DeskFlow
code base that carry the data-model and storage contracts:

* `src/models/task.py`, `src/models/project.py`, `src/models/settings.py`
  (the duck-typed `update(**kwargs)` mutators and the `completed_at` logic),
* `src/data/storage.py` (`_write_json`, `_read_json`, `_create_backup`,
  `_cleanup_old_backups`, `_restore_from_backup`, `save_task` / `save_project`
  and friends),
* `src/ui/views/tasks.py` (`_check_circular_dependency` / `has_path` and
  `_check_incomplete_dependencies`).

Python objects are modelled as attribute association lists over a small
Python-value type; the filesystem is modelled explicitly (file contents,
modification times, and a backup directory); exceptions are modelled with
`Except` or explicit error flags.  Each modelled definition carries a note
naming the Python definition it embeds.
-/

/-- A Python runtime value, restricted to the shapes that occur in the
DeskFlow data model (JSON-compatible values).  Python `None` is `none`. -/
inductive PyVal where
  | none : PyVal
  | bool (b : Bool) : PyVal
  | int (n : Int) : PyVal
  | str (s : String) : PyVal
  | list (xs : List PyVal) : PyVal
  | dict (kvs : List (String × PyVal)) : PyVal

/-- Python truthiness (`bool(v)`) for the values of `PyVal`:
`None`, `False`, `0`, `""`, `[]`, and the empty dict are falsy. -/
def PyVal.truthy : PyVal → Bool
  | .none => false
  | .bool b => b
  | .int n => n != 0
  | .str s => s ≠ ""
  | .list xs => ¬ xs.isEmpty
  | .dict kvs => ¬ kvs.isEmpty

/-- A Python object, modelled as its attribute dictionary (`self.__dict__`):
an association list from attribute names to values. -/
def Obj : Type := List (String × PyVal)

/-- Dictionary lookup by key (first binding wins; Python dicts never hold
duplicate keys, so the bindings are unique in every object this file builds). -/
def Obj.lookupAttr : Obj → String → Option PyVal
  | [], _ => Option.none
  | (k', v) :: rest, k => if k' = k then some v else Obj.lookupAttr rest k

/-- Python `hasattr(self, k)`. -/
def Obj.hasattr (o : Obj) (k : String) : Bool :=
  (o.lookupAttr k).isSome

/-- Python `getattr(self, k)` on objects that have the attribute
(missing attributes read as `None`; all theorems only read attributes
whose presence is tracked by `hasattr`). -/
def Obj.getattr (o : Obj) (k : String) : PyVal :=
  (o.lookupAttr k).getD PyVal.none

/-- Python `setattr(self, k, v)`: replaces the binding if the attribute
exists, otherwise creates it. -/
def Obj.setattr (o : Obj) (k : String) (v : PyVal) : Obj :=
  match o with
  | [] => [(k, v)]
  | (k', v') :: rest =>
      if k' = k then (k, v) :: rest else (k', v') :: Obj.setattr rest k v

/-- The shared loop of `Task.update`, `Project.update` and `Settings.update`:

    for key, value in kwargs.items():
        if hasattr(self, key):
            setattr(self, key, value)

(`src/models/task.py:106-108`, `src/models/project.py:104-106`,
`src/models/settings.py:62-64`). -/
def genericUpdate (o : Obj) (kwargs : List (String × PyVal)) : Obj :=
  match kwargs with
  | [] => o
  | (k, v) :: rest =>
      genericUpdate (if o.hasattr k then o.setattr k v else o) rest

/-- `kwargs.get("status") == "completed"`: Python `dict.get` returns `None`
when the key is missing, and `None == "completed"` is `False`. -/
def statusIsCompleted (kwargs : List (String × PyVal)) : Bool :=
  match Obj.lookupAttr kwargs "status" with
  | some (PyVal.str s) => s = "completed"
  | _ => false

/-- `Settings.update(**kwargs)` (`src/models/settings.py:60-64`):
just the generic attribute loop, no timestamp refresh. -/
def settingsUpdate (o : Obj) (kwargs : List (String × PyVal)) : Obj :=
  genericUpdate o kwargs

/-- `Project.update(**kwargs)` (`src/models/project.py:102-107`):
the generic attribute loop followed by `self.updated_at = now`. -/
def projectUpdate (o : Obj) (kwargs : List (String × PyVal)) (now : String) : Obj :=
  (genericUpdate o kwargs).setattr "updated_at" (PyVal.str now)

/-- `Task.update(**kwargs)` (`src/models/task.py:104-115`):

    for key, value in kwargs.items():
        if hasattr(self, key): setattr(self, key, value)
    self.updated_at = datetime.now().isoformat()
    if kwargs.get("status") == "completed" and not self.completed_at:
        self.completed_at = datetime.now().isoformat()
    elif kwargs.get("status") != "completed":
        self.completed_at = None

`now` stands for `datetime.now().isoformat()`. -/
def taskUpdate (o : Obj) (kwargs : List (String × PyVal)) (now : String) : Obj :=
  let o2 := (genericUpdate o kwargs).setattr "updated_at" (PyVal.str now)
  if statusIsCompleted kwargs ∧ ¬ (o2.getattr "completed_at").truthy then
    o2.setattr "completed_at" (PyVal.str now)
  else if ¬ statusIsCompleted kwargs then
    o2.setattr "completed_at" PyVal.none
  else o2

/-- `Task.__init__` (`src/models/task.py:43-83`), as the attribute dictionary
it leaves on `self`, in assignment order.  `freshId` stands for
`str(uuid.uuid4())` and `now` for `datetime.now().isoformat()`; following
Python `x or y`, the generated values are used only when the corresponding
argument is falsy. -/
def taskInit (title : PyVal) (projectId : PyVal) (description : PyVal)
    (status : PyVal) (priority : PyVal) (dueDate : PyVal)
    (estimatedHours : PyVal) (actualHours : PyVal) (tags : PyVal)
    (checklist : PyVal) (blockedReason : PyVal) (dependencies : PyVal)
    (timerRunning : PyVal) (timerStartTime : PyVal) (timerElapsedSeconds : PyVal)
    (taskId : PyVal) (createdAt : PyVal) (updatedAt : PyVal) (completedAt : PyVal)
    (freshId : String) (now : String) : Obj :=
  [ ("id", if taskId.truthy then taskId else PyVal.str freshId),
    ("project_id", projectId),
    ("title", title),
    ("description", description),
    ("status", status),
    ("priority", priority),
    ("created_at", if createdAt.truthy then createdAt else PyVal.str now),
    ("updated_at", if updatedAt.truthy then updatedAt else PyVal.str now),
    ("due_date", dueDate),
    ("completed_at", completedAt),
    ("estimated_hours", estimatedHours),
    ("actual_hours", actualHours),
    ("tags", if tags.truthy then tags else PyVal.list []),
    ("checklist", if checklist.truthy then checklist else PyVal.list []),
    ("blocked_reason", blockedReason),
    ("dependencies", if dependencies.truthy then dependencies else PyVal.list []),
    ("timer_running", timerRunning),
    ("timer_start_time", timerStartTime),
    ("timer_elapsed_seconds", timerElapsedSeconds) ]

/-! ### Basic lemmas about the attribute-dictionary model -/

theorem PyVal.ne_none_of_truthy {v : PyVal} (h : v.truthy = true) : v ≠ PyVal.none := by
  intro hv; subst hv; simp [PyVal.truthy] at h

theorem Obj.lookupAttr_setattr_self (o : Obj) (k : String) (v : PyVal) :
    (o.setattr k v).lookupAttr k = some v := by
  induction o with
  | nil => simp [Obj.setattr, Obj.lookupAttr]
  | cons kv rest ih =>
      obtain ⟨k0, v0⟩ := kv
      by_cases h : k0 = k <;> simp [Obj.setattr, Obj.lookupAttr, h, ih]

theorem Obj.lookupAttr_setattr_ne (o : Obj) (k k' : String) (v : PyVal) (h : k' ≠ k) :
    (o.setattr k v).lookupAttr k' = o.lookupAttr k' := by
  have h' : ¬ k = k' := fun hk => h hk.symm
  induction o with
  | nil => simp [Obj.setattr, Obj.lookupAttr, h']
  | cons kv rest ih =>
      obtain ⟨k0, v0⟩ := kv
      by_cases h0 : k0 = k
      · subst h0
        simp [Obj.setattr, Obj.lookupAttr, h']
      · simp only [Obj.setattr, h0, if_false, Obj.lookupAttr]
        by_cases hk : k0 = k' <;> simp [hk, ih]

theorem Obj.getattr_setattr_self (o : Obj) (k : String) (v : PyVal) :
    (o.setattr k v).getattr k = v := by
  simp [Obj.getattr, Obj.lookupAttr_setattr_self]

theorem Obj.getattr_setattr_ne (o : Obj) (k k' : String) (v : PyVal) (h : k' ≠ k) :
    (o.setattr k v).getattr k' = o.getattr k' := by
  simp [Obj.getattr, Obj.lookupAttr_setattr_ne o k k' v h]

theorem Obj.hasattr_setattr_self (o : Obj) (k : String) (v : PyVal) :
    (o.setattr k v).hasattr k = true := by
  simp [Obj.hasattr, Obj.lookupAttr_setattr_self]

theorem Obj.hasattr_setattr_ne (o : Obj) (k k' : String) (v : PyVal) (h : k' ≠ k) :
    (o.setattr k v).hasattr k' = o.hasattr k' := by
  simp [Obj.hasattr, Obj.lookupAttr_setattr_ne o k k' v h]

/-- The generic `update` loop only overwrites existing attributes, so the
attribute set of the object is invariant. -/
theorem hasattr_genericUpdate (kwargs : List (String × PyVal)) (o : Obj) (k : String) :
    (genericUpdate o kwargs).hasattr k = o.hasattr k := by
  induction kwargs generalizing o with
  | nil => rfl
  | cons kv rest ih =>
      obtain ⟨k0, v0⟩ := kv
      simp only [genericUpdate]
      rw [ih]
      by_cases h : o.hasattr k0
      · simp only [h, if_true]
        by_cases hk : k = k0
        · subst hk; rw [Obj.hasattr_setattr_self]; exact h.symm
        · exact Obj.hasattr_setattr_ne o k0 k v0 hk
      · simp [h]

/-- Frame property of the generic `update` loop: an attribute that is either
absent from the object or not named in `kwargs` keeps its value. -/
theorem getattr_genericUpdate_frame (kwargs : List (String × PyVal)) (o : Obj) (k : String)
    (h : o.hasattr k = false ∨ k ∉ kwargs.map Prod.fst) :
    (genericUpdate o kwargs).getattr k = o.getattr k := by
  induction kwargs generalizing o with
  | nil => rfl
  | cons kv rest ih =>
      obtain ⟨k0, v0⟩ := kv
      simp only [genericUpdate]
      by_cases h0 : o.hasattr k0
      · simp only [h0, if_true]
        have hk : k ≠ k0 := by
          rcases h with h | h
          · intro hk; subst hk; rw [h0] at h; exact Bool.noConfusion h
          · intro hk; subst hk; exact h (by simp)
        rw [ih]
        · exact Obj.getattr_setattr_ne o k0 k v0 hk
        · rcases h with h | h
          · left; rw [Obj.hasattr_setattr_ne o k0 k v0 hk]; exact h
          · right; intro hmem; exact h (by simpa using Or.inr hmem)
      · simp only [h0, if_false]
        apply ih
        rcases h with h | h
        · exact Or.inl h
        · right; intro hmem; exact h (by simpa using Or.inr hmem)

/-- `Task.update` always ends in one of three shapes: the generic loop plus
the `updated_at` touch, followed by setting `completed_at` to `now`, to
`None`, or not at all. -/
theorem taskUpdate_cases (o : Obj) (kwargs : List (String × PyVal)) (now : String) :
    taskUpdate o kwargs now =
      ((genericUpdate o kwargs).setattr "updated_at" (PyVal.str now)).setattr
        "completed_at" (PyVal.str now)
  ∨ taskUpdate o kwargs now =
      ((genericUpdate o kwargs).setattr "updated_at" (PyVal.str now)).setattr
        "completed_at" PyVal.none
  ∨ taskUpdate o kwargs now =
      (genericUpdate o kwargs).setattr "updated_at" (PyVal.str now) := by
  simp only [taskUpdate]
  split
  · exact Or.inl rfl
  · split
    · exact Or.inr (Or.inl rfl)
    · exact Or.inr (Or.inr rfl)

/-- C10: for every entity object and keyword-argument list, `update(**kwargs)`
assigns only names that already exist as attributes and silently ignores the
rest (no new attribute is ever created); every attribute not named in
`kwargs` is unchanged — except that `Task.update` and `Project.update`
overwrite `updated_at` on every call, and `Task.update` may additionally
modify `completed_at`; `Settings.update` has no such exception. -/
theorem update_kwargs_frame (o : Obj) (kwargs : List (String × PyVal)) (now : String)
    (k : String) :
    ((settingsUpdate o kwargs).hasattr k = o.hasattr k)
  ∧ (k ≠ "updated_at" → (projectUpdate o kwargs now).hasattr k = o.hasattr k)
  ∧ (k ≠ "updated_at" → k ≠ "completed_at" →
       (taskUpdate o kwargs now).hasattr k = o.hasattr k)
  ∧ (o.hasattr k = false ∨ k ∉ kwargs.map Prod.fst →
       (settingsUpdate o kwargs).getattr k = o.getattr k)
  ∧ (o.hasattr k = false ∨ k ∉ kwargs.map Prod.fst → k ≠ "updated_at" →
       (projectUpdate o kwargs now).getattr k = o.getattr k)
  ∧ (o.hasattr k = false ∨ k ∉ kwargs.map Prod.fst → k ≠ "updated_at" →
       k ≠ "completed_at" → (taskUpdate o kwargs now).getattr k = o.getattr k)
  ∧ (projectUpdate o kwargs now).getattr "updated_at" = PyVal.str now
  ∧ (taskUpdate o kwargs now).getattr "updated_at" = PyVal.str now := by
  refine ⟨?_, ?_, ?_, ?_, ?_, ?_, ?_, ?_⟩
  · exact hasattr_genericUpdate kwargs o k
  · intro hu
    rw [projectUpdate, Obj.hasattr_setattr_ne _ _ _ _ hu, hasattr_genericUpdate]
  · intro hu hc
    rcases taskUpdate_cases o kwargs now with h | h | h <;> rw [h]
    · rw [Obj.hasattr_setattr_ne _ _ _ _ hc, Obj.hasattr_setattr_ne _ _ _ _ hu,
        hasattr_genericUpdate]
    · rw [Obj.hasattr_setattr_ne _ _ _ _ hc, Obj.hasattr_setattr_ne _ _ _ _ hu,
        hasattr_genericUpdate]
    · rw [Obj.hasattr_setattr_ne _ _ _ _ hu, hasattr_genericUpdate]
  · intro h
    exact getattr_genericUpdate_frame kwargs o k h
  · intro h hu
    rw [projectUpdate, Obj.getattr_setattr_ne _ _ _ _ hu,
      getattr_genericUpdate_frame kwargs o k h]
  · intro h hu hc
    rcases taskUpdate_cases o kwargs now with ht | ht | ht <;> rw [ht]
    · rw [Obj.getattr_setattr_ne _ _ _ _ hc, Obj.getattr_setattr_ne _ _ _ _ hu,
        getattr_genericUpdate_frame kwargs o k h]
    · rw [Obj.getattr_setattr_ne _ _ _ _ hc, Obj.getattr_setattr_ne _ _ _ _ hu,
        getattr_genericUpdate_frame kwargs o k h]
    · rw [Obj.getattr_setattr_ne _ _ _ _ hu, getattr_genericUpdate_frame kwargs o k h]
  · exact Obj.getattr_setattr_self _ _ _
  · rcases taskUpdate_cases o kwargs now with ht | ht | ht <;> rw [ht]
    · rw [Obj.getattr_setattr_ne _ _ _ _ (by decide), Obj.getattr_setattr_self]
    · rw [Obj.getattr_setattr_ne _ _ _ _ (by decide), Obj.getattr_setattr_self]
    · exact Obj.getattr_setattr_self _ _ _

/-- Witness for `update_kwargs_frame`: a concrete settings-like, project-like
and task-like object updated with a keyword set containing one known and one
unknown name; the unknown name is ignored and untouched attributes survive. -/
theorem update_kwargs_frame_witness :
    ((settingsUpdate [("theme", PyVal.str "system")]
        [("theme", PyVal.str "dark"), ("bogus", PyVal.int 2)]).hasattr "bogus" = false)
  ∧ ((taskUpdate
        [("title", PyVal.str "Design"), ("status", PyVal.str "todo"),
         ("updated_at", PyVal.str "2024-01-01T00:00:00"), ("completed_at", PyVal.none)]
        [("bogus", PyVal.int 2)] "2024-02-01T00:00:00").getattr "title"
      = PyVal.str "Design")
  ∧ ((taskUpdate
        [("title", PyVal.str "Design"), ("status", PyVal.str "todo"),
         ("updated_at", PyVal.str "2024-01-01T00:00:00"), ("completed_at", PyVal.none)]
        [("bogus", PyVal.int 2)] "2024-02-01T00:00:00").getattr "updated_at"
      = PyVal.str "2024-02-01T00:00:00") := by
  refine ⟨?_, ?_, ?_⟩
  · have h := (update_kwargs_frame [("theme", PyVal.str "system")]
      [("theme", PyVal.str "dark"), ("bogus", PyVal.int 2)] "2024-02-01T00:00:00" "bogus").1
    rw [h]; rfl
  · have h := (update_kwargs_frame
      [("title", PyVal.str "Design"), ("status", PyVal.str "todo"),
       ("updated_at", PyVal.str "2024-01-01T00:00:00"), ("completed_at", PyVal.none)]
      [("bogus", PyVal.int 2)] "2024-02-01T00:00:00" "title").2.2.2.2.2.1
    rw [h (Or.inr (by simp)) (by decide) (by decide)]; rfl
  · exact (update_kwargs_frame
      [("title", PyVal.str "Design"), ("status", PyVal.str "todo"),
       ("updated_at", PyVal.str "2024-01-01T00:00:00"), ("completed_at", PyVal.none)]
      [("bogus", PyVal.int 2)] "2024-02-01T00:00:00" "k").2.2.2.2.2.2.2

/-- A concrete completed task (as built by `Task.__init__`): status
"completed" with a matching non-null `completed_at`. -/
def c3Task : Obj :=
  taskInit (PyVal.str "Design") PyVal.none (PyVal.str "") (PyVal.str "completed")
    (PyVal.str "medium") PyVal.none PyVal.none PyVal.none PyVal.none PyVal.none
    PyVal.none PyVal.none (PyVal.bool false) PyVal.none (PyVal.int 0)
    (PyVal.str "t1") (PyVal.str "2024-01-01T00:00:00")
    (PyVal.str "2024-01-01T00:00:00") (PyVal.str "2024-01-02T00:00:00")
    "unused-uuid" "2024-01-01T00:00:00"

/-- C3 counterexample: an update that does not mention `status` at all
(`task.update(title="X")`) on a completed task leaves `status` equal to
"completed" but clears `completed_at` to `None` — the invariant
"`completed_at` is non-null iff status is completed" and the frame clause
"`completed_at` is left unchanged by updates that do not change status"
are both violated at this input. -/
theorem taskUpdate_clears_completed_at_counterexample :
    (c3Task.getattr "status" = PyVal.str "completed")
  ∧ (c3Task.getattr "completed_at" = PyVal.str "2024-01-02T00:00:00")
  ∧ ((taskUpdate c3Task [("title", PyVal.str "X")] "2024-02-01T00:00:00").getattr "status"
       = PyVal.str "completed")
  ∧ ((taskUpdate c3Task [("title", PyVal.str "X")] "2024-02-01T00:00:00").getattr
       "completed_at" = PyVal.none) := by
  exact ⟨rfl, rfl, rfl, rfl⟩

/-- C3 amended: after any `Task.update(**kwargs)` call, `completed_at` is
non-null exactly when `kwargs` maps "status" to the string "completed" — so
the spec invariant holds after updates that pass a `status` keyword, but any
update omitting `status` (or setting it to a non-completed value) clears
`completed_at`, even when the task's status remains "completed"; moreover,
when `kwargs` sets status to "completed" and the current `completed_at` is
falsy it is set to the fresh timestamp `now`, and `Task.__init__` stores the
`completed_at` argument unchanged, with no coupling to `status`. -/
theorem taskUpdate_completed_at_amended (o : Obj) (kwargs : List (String × PyVal))
    (now : String) :
    ((taskUpdate o kwargs now).getattr "completed_at" ≠ PyVal.none
        ↔ statusIsCompleted kwargs = true)
  ∧ (statusIsCompleted kwargs = true →
       ¬ (((genericUpdate o kwargs).setattr "updated_at"
             (PyVal.str now)).getattr "completed_at").truthy = true →
       (taskUpdate o kwargs now).getattr "completed_at" = PyVal.str now)
  ∧ (∀ title projectId description status priority dueDate estimatedHours actualHours
        tags checklist blockedReason dependencies timerRunning timerStartTime
        timerElapsedSeconds taskId createdAt updatedAt completedAt freshId nowArg,
      (taskInit title projectId description status priority dueDate estimatedHours
          actualHours tags checklist blockedReason dependencies timerRunning
          timerStartTime timerElapsedSeconds taskId createdAt updatedAt completedAt
          freshId nowArg).getattr "completed_at" = completedAt) := by
  refine ⟨?_, ?_, ?_⟩
  · by_cases hs : statusIsCompleted kwargs = true
    · by_cases ht : (((genericUpdate o kwargs).setattr "updated_at"
          (PyVal.str now)).getattr "completed_at").truthy = true
      · have hcond : ¬ (statusIsCompleted kwargs = true ∧
            ¬ (((genericUpdate o kwargs).setattr "updated_at"
                  (PyVal.str now)).getattr "completed_at").truthy = true) := by
          simp [ht]
        rw [taskUpdate, if_neg hcond, if_neg (by simp [hs])]
        simp only [hs, iff_true]
        exact PyVal.ne_none_of_truthy ht
      · rw [taskUpdate, if_pos ⟨hs, ht⟩, Obj.getattr_setattr_self]
        simp [hs]
    · have hcond : ¬ (statusIsCompleted kwargs = true ∧
          ¬ (((genericUpdate o kwargs).setattr "updated_at"
                (PyVal.str now)).getattr "completed_at").truthy = true) := by
        simp [hs]
      rw [taskUpdate, if_neg hcond, if_pos hs, Obj.getattr_setattr_self]
      simp [hs]
  · intro hs ht
    rw [taskUpdate, if_pos ⟨hs, ht⟩, Obj.getattr_setattr_self]
  · intro title projectId description status priority dueDate estimatedHours actualHours
      tags checklist blockedReason dependencies timerRunning timerStartTime
      timerElapsedSeconds taskId createdAt updatedAt completedAt freshId nowArg
    rfl

/-- Witness for `taskUpdate_completed_at_amended`, at a concrete input: a
todo task updated with `status="completed"` gets `completed_at = now`. -/
theorem taskUpdate_completed_at_amended_witness :
    (taskUpdate [("status", PyVal.str "todo"), ("updated_at", PyVal.str "x"),
        ("completed_at", PyVal.none)]
      [("status", PyVal.str "completed")] "2024-02-01T00:00:00").getattr "completed_at"
      = PyVal.str "2024-02-01T00:00:00" := by
  exact (taskUpdate_completed_at_amended [("status", PyVal.str "todo"),
      ("updated_at", PyVal.str "x"), ("completed_at", PyVal.none)]
      [("status", PyVal.str "completed")] "2024-02-01T00:00:00").2.1 (by rfl) (by decide)

/-! ### Atomic file writer (`StorageManager._write_json`, `src/data/storage.py:50-72`) -/

/-- The slice of the filesystem `_write_json` touches: the target file and the
scratch (temp) file it creates next to it.  `Option.none` means the file does
not exist; a `String` is the file's byte content. -/
structure WriterFS where
  target : Option String
  scratch : Option String
deriving DecidableEq

/-- One run of `_write_json(file_path, data)`, with failure injection.

    temp_fd, temp_path = tempfile.mkstemp(dir=file_path.parent, ...)
    try:
        with os.fdopen(temp_fd, 'w', ...) as f:
            json.dump(data, f, indent=2, ensure_ascii=False)
        shutil.move(temp_path, file_path)
    except Exception as e:
        try: os.unlink(temp_path)
        except: pass
        raise e

`data` is the serialized JSON text.  `failDump = some k` injects an exception
after `json.dump` has emitted `k` characters of `data`; `failMove` injects an
exception in `shutil.move` (a same-directory rename, hence atomic: on failure
the target is untouched).  The result is the success flag (`false` = the
exception was re-raised to the caller) together with the trace of filesystem
states after each primitive step, so that "observable" intermediate states
can be quantified over.  (`os.unlink` itself failing — swallowed by the bare
`except: pass` — is not modelled.) -/
def writeJsonRun (orig : Option String) (data : String) (failDump : Option Nat)
    (failMove : Bool) : Bool × List WriterFS :=
  let s0 : WriterFS := ⟨orig, Option.none⟩
  let s1 : WriterFS := ⟨orig, some ""⟩
  match failDump with
  | some k =>
      let s2 : WriterFS := ⟨orig, some (data.take k)⟩
      (false, [s0, s1, s2, ⟨orig, Option.none⟩])
  | Option.none =>
      let s2 : WriterFS := ⟨orig, some data⟩
      if failMove then
        (false, [s0, s1, s2, ⟨orig, Option.none⟩])
      else
        (true, [s0, s1, s2, ⟨some data, Option.none⟩])

/-- C1: `_write_json` is atomic.  On success the target holds exactly the new
serialized content; if an exception is injected at any point before the
rename completes, the run re-raises (returns `false`), the target still holds
its prior content, and the scratch file has been deleted; and in every
intermediate state of every run the target reads as either the complete old
content or the complete new content — never a partial write. -/
theorem writeJson_atomic (orig : Option String) (data : String)
    (failDump : Option Nat) (failMove : Bool) :
    ((writeJsonRun orig data failDump failMove).1 = true →
       (writeJsonRun orig data failDump failMove).2.getLast? =
         some ⟨some data, Option.none⟩)
  ∧ ((writeJsonRun orig data failDump failMove).1 = false →
       (writeJsonRun orig data failDump failMove).2.getLast? =
         some ⟨orig, Option.none⟩)
  ∧ ((writeJsonRun orig data failDump failMove).1 = false ↔
       failDump ≠ Option.none ∨ failMove = true)
  ∧ (∀ s ∈ (writeJsonRun orig data failDump failMove).2,
       s.target = orig ∨ s.target = some data) := by
  match failDump with
  | some k =>
      refine ⟨?_, ?_, ?_, ?_⟩
      · intro h; simp [writeJsonRun] at h
      · intro _; simp [writeJsonRun, List.getLast?]
      · simp [writeJsonRun]
      · intro s hs
        simp only [writeJsonRun] at hs
        fin_cases hs <;> first | exact Or.inl rfl | exact Or.inr rfl
  | Option.none =>
      cases failMove with
      | true =>
          refine ⟨?_, ?_, ?_, ?_⟩
          · intro h; simp [writeJsonRun] at h
          · intro _; simp [writeJsonRun, List.getLast?]
          · simp [writeJsonRun]
          · intro s hs
            simp only [writeJsonRun, if_true] at hs
            fin_cases hs <;> first | exact Or.inl rfl | exact Or.inr rfl
      | false =>
          refine ⟨?_, ?_, ?_, ?_⟩
          · intro _; simp [writeJsonRun, List.getLast?]
          · intro h; simp [writeJsonRun] at h
          · simp [writeJsonRun]
          · intro s hs
            simp only [writeJsonRun, if_false] at hs
            fin_cases hs <;> first | exact Or.inl rfl | exact Or.inr rfl

/-- Witness for `writeJson_atomic` at concrete inputs: a successful run
installs the new content, and a run that fails mid-dump leaves the old
content and no scratch file. -/
theorem writeJson_atomic_witness :
    ((writeJsonRun (some "old") "new-json" Option.none false).1 = true
       ∧ (writeJsonRun (some "old") "new-json" Option.none false).2.getLast? =
           some ⟨some "new-json", Option.none⟩)
  ∧ ((writeJsonRun (some "old") "new-json" (some 3) false).1 = false
       ∧ (writeJsonRun (some "old") "new-json" (some 3) false).2.getLast? =
           some ⟨some "old", Option.none⟩) := by
  refine ⟨⟨rfl, ?_⟩, rfl, ?_⟩
  · exact (writeJson_atomic (some "old") "new-json" Option.none false).1 rfl
  · exact (writeJson_atomic (some "old") "new-json" (some 3) false).2.1 rfl

/-! ### Dependency graph validation (`src/ui/views/tasks.py:600-648`) -/

/-- The projection of a stored Task that the dependency-graph validator
reads: its id, title, status and dependency edge list
(`TaskDialog._check_circular_dependency` / `_check_incomplete_dependencies`
touch no other field). -/
structure TaskNode where
  id : String
  title : String
  status : String
  dependencies : List String
deriving DecidableEq

/-- `all_tasks = {t.id: t for t in self.storage.get_all_tasks()}` followed by
`all_tasks.get(tid)`: dict construction iterates in list order, so the last
task with a given id wins. -/
def lookupTask (tasks : List TaskNode) (tid : String) : Option TaskNode :=
  tasks.foldl (fun acc t => if t.id = tid then some t else acc) Option.none

/-- The set of task ids present in the loaded task list. -/
def taskIds (tasks : List TaskNode) : Finset String :=
  (tasks.map TaskNode.id).toFinset

theorem lookupTask_mem {tasks : List TaskNode} {tid : String} {tk : TaskNode}
    (h : lookupTask tasks tid = some tk) : tk ∈ tasks ∧ tk.id = tid := by
  suffices H : ∀ acc : Option TaskNode,
      tasks.foldl (fun acc t => if t.id = tid then some t else acc) acc = some tk →
      (tk ∈ tasks ∧ tk.id = tid) ∨ acc = some tk by
    rcases H Option.none h with h1 | h1
    · exact h1
    · cases h1
  clear h
  intro acc
  induction tasks generalizing acc with
  | nil => intro h0; exact Or.inr h0
  | cons t rest ih =>
      intro h0
      rw [List.foldl_cons] at h0
      rcases ih (if t.id = tid then some t else acc) h0 with h1 | h1
      · exact Or.inl ⟨List.mem_cons_of_mem _ h1.1, h1.2⟩
      · by_cases ht : t.id = tid
        · rw [if_pos ht] at h1
          cases h1
          exact Or.inl ⟨List.mem_cons_self _ _, ht⟩
        · rw [if_neg ht] at h1
          exact Or.inr h1

theorem mem_taskIds_of_lookupTask {tasks : List TaskNode} {tid : String} {tk : TaskNode}
    (h : lookupTask tasks tid = some tk) : tid ∈ taskIds tasks := by
  obtain ⟨hmem, hid⟩ := lookupTask_mem h
  simp only [taskIds, List.mem_toFinset, List.mem_map]
  exact ⟨tk, hmem, hid⟩

theorem sdiff_insert_ssubset {ids v : Finset String} {f : String}
    (hf : f ∈ ids) (hv : f ∉ v) : ids \ insert f v ⊂ ids \ v := by
  rw [Finset.ssubset_iff_of_subset]
  · exact ⟨f, Finset.mem_sdiff.2 ⟨hf, hv⟩, by simp⟩
  · intro x hx
    rw [Finset.mem_sdiff] at hx ⊢
    exact ⟨hx.1, fun hxv => hx.2 (Finset.mem_insert_of_mem hxv)⟩

mutual

/-- `has_path(from_id, to_id, visited)` (`src/ui/views/tasks.py:608-623`):

    if from_id == to_id: return True
    if from_id in visited: return False
    visited.add(from_id)
    task = all_tasks.get(from_id)
    if not task: return False
    for dep_id in task.dependencies:
        if has_path(dep_id, to_id, visited.copy()): return True
    return False

Each recursive call receives a copy of the visited set extended with
`from_id`, modelled by passing `insert fromId visited`. -/
def hasPath (tasks : List TaskNode) (toId fromId : String) (visited : Finset String) :
    Bool :=
  if fromId = toId then true
  else if hv : fromId ∈ visited then false
  else
    match hl : lookupTask tasks fromId with
    | Option.none => false
    | some tk => anyDepPath tasks toId (insert fromId visited) tk.dependencies
termination_by (((taskIds tasks) \ visited).card, 0)
decreasing_by
  apply Prod.Lex.left
  exact Finset.card_lt_card (sdiff_insert_ssubset (mem_taskIds_of_lookupTask hl) hv)

/-- The `for dep_id in task.dependencies` loop of `has_path`. -/
def anyDepPath (tasks : List TaskNode) (toId : String) (visited : Finset String) :
    List String → Bool
  | [] => false
  | d :: rest =>
      if hasPath tasks toId d visited then true
      else anyDepPath tasks toId visited rest
termination_by deps => (((taskIds tasks) \ visited).card, deps.length + 1)
decreasing_by
  · apply Prod.Lex.right
    simp only [List.length_cons]
    omega
  · apply Prod.Lex.right
    simp only [List.length_cons]
    omega

end

/-- Graph reachability along the stored `dependencies` edges: `Reaches tasks
f t` holds when there is a (possibly empty) path from task id `f` to task id
`t`, each step going from a task present in the loaded set to one of its
dependency ids. -/
inductive Reaches (tasks : List TaskNode) : String → String → Prop
  | refl (x : String) : Reaches tasks x x
  | step {f t d : String} {tk : TaskNode} (hl : lookupTask tasks f = some tk)
      (hd : d ∈ tk.dependencies) (h : Reaches tasks d t) : Reaches tasks f t

/-- Reachability avoiding a visited set: the first node of every step must
lie outside `V`, and the nodes of the path are pairwise distinct because each
step adds its source to `V` (this is exactly the search space `has_path`
explores). -/
inductive ReachesAvoiding (tasks : List TaskNode) :
    Finset String → String → String → Prop
  | refl (V : Finset String) (x : String) : ReachesAvoiding tasks V x x
  | step {V : Finset String} {f t d : String} {tk : TaskNode} (hv : f ∉ V)
      (hl : lookupTask tasks f = some tk) (hd : d ∈ tk.dependencies)
      (h : ReachesAvoiding tasks (insert f V) d t) : ReachesAvoiding tasks V f t

theorem anyDepPath_iff (tasks : List TaskNode) (toId : String) (visited : Finset String)
    (deps : List String) :
    anyDepPath tasks toId visited deps = true ↔
      ∃ d ∈ deps, hasPath tasks toId d visited = true := by
  induction deps with
  | nil => simp [anyDepPath]
  | cons d rest ih =>
      rw [anyDepPath]
      cases hcall : hasPath tasks toId d visited with
      | true =>
          simp only [hcall, if_true, true_iff]
          exact ⟨d, List.mem_cons_self _ _, hcall⟩
      | false =>
          simp only [hcall, Bool.false_eq_true, if_false, ih, List.mem_cons]
          constructor
          · rintro ⟨x, hx, hpx⟩; exact ⟨x, Or.inr hx, hpx⟩
          · rintro ⟨x, hx | hx, hpx⟩
            · subst hx; rw [hcall] at hpx; cases hpx
            · exact ⟨x, hx, hpx⟩

/-- The DFS `has_path` decides reachability-avoiding-`visited`. -/
theorem hasPath_iff_reachesAvoiding (tasks : List TaskNode) (toId fromId : String)
    (visited : Finset String) :
    hasPath tasks toId fromId visited = true ↔
      ReachesAvoiding tasks visited fromId toId := by
  constructor
  · have main : ∀ n f V, ((taskIds tasks) \ V).card = n →
        hasPath tasks toId f V = true → ReachesAvoiding tasks V f toId := by
      intro n
      induction n using Nat.strong_induction_on with
      | _ n ih =>
          intro f V hcard hp
          rw [hasPath] at hp
          split at hp
          · next hft => subst hft; exact ReachesAvoiding.refl _ _
          · split at hp
            · cases hp
            · next hv =>
                split at hp
                · cases hp
                · next tk hl =>
                    obtain ⟨d, hd, hpd⟩ := (anyDepPath_iff _ _ _ _).1 hp
                    have hlt : ((taskIds tasks) \ insert f V).card < n := by
                      rw [← hcard]
                      exact Finset.card_lt_card
                        (sdiff_insert_ssubset (mem_taskIds_of_lookupTask hl) hv)
                    exact ReachesAvoiding.step hv hl hd
                      (ih _ hlt d (insert f V) rfl hpd)
    exact main _ fromId visited rfl
  · intro h
    induction h with
    | refl V x => rw [hasPath]; simp
    | @step V f t d tk hv hl hd hchild ih =>
        rw [hasPath]
        by_cases hft : f = t
        · simp [hft]
        · rw [if_neg hft, dif_neg hv, hl]
          exact (anyDepPath_iff _ _ _ _).2 ⟨d, hd, ih⟩

theorem ReachesAvoiding.weaken {tasks : List TaskNode} {V V' : Finset String}
    {f t : String} (hsub : V' ⊆ V) (h : ReachesAvoiding tasks V f t) :
    ReachesAvoiding tasks V' f t := by
  induction h generalizing V' with
  | refl V x => exact .refl _ _
  | @step V g t2 d tk hv hl hd hchild ih =>
      exact .step (fun hf => hv (hsub hf)) hl hd
        (ih (Finset.insert_subset_insert _ hsub))

/-- If `d` reaches `t` avoiding `V`, then after additionally forbidding a
node `f`, either the path still exists, or `f` itself reaches `t` avoiding
`V` (the path must have gone through `f`, and its suffix from `f` works). -/
theorem ReachesAvoiding.delete_or {tasks : List TaskNode} {V : Finset String}
    {d t : String} (h : ReachesAvoiding tasks V d t) (f : String) :
    ReachesAvoiding tasks (insert f V) d t ∨ ReachesAvoiding tasks V f t := by
  induction h with
  | refl V x => exact Or.inl (.refl _ _)
  | @step V g t2 d' tk hv hl hd hchild ih =>
      by_cases hgf : g = f
      · subst hgf; exact Or.inr (.step hv hl hd hchild)
      · rcases ih with h1 | h1
        · left
          refine .step ?_ hl hd ?_
          · simp only [Finset.mem_insert]
            rintro (h2 | h2)
            · exact hgf h2
            · exact hv h2
          · rwa [Finset.Insert.comm] at h1
        · exact Or.inr (h1.weaken (Finset.subset_insert _ _))

/-- Unrestricted reachability coincides with the search space of `has_path`
started from an empty visited set. -/
theorem reaches_iff_reachesAvoiding (tasks : List TaskNode) (f t : String) :
    Reaches tasks f t ↔ ReachesAvoiding tasks ∅ f t := by
  constructor
  · intro h
    induction h with
    | refl x => exact .refl _ _
    | @step g t2 d tk hl hd hchild ih =>
        rcases ih.delete_or g with h1 | h1
        · exact .step (Finset.not_mem_empty _) hl hd h1
        · exact h1
  · intro h
    have aux : ∀ (V : Finset String) (f t : String),
        ReachesAvoiding tasks V f t → Reaches tasks f t := by
      intro V f t h0
      induction h0 with
      | refl V x => exact Reaches.refl _
      | @step V g t2 d tk hv hl hd hchild ih => exact Reaches.step hl hd ih
    exact aux ∅ f t h

/-- `has_path(d, toId, set())` is true exactly when `d` reaches `toId`
through the stored dependency edges. -/
theorem hasPath_iff_reaches (tasks : List TaskNode) (toId d : String) :
    hasPath tasks toId d ∅ = true ↔ Reaches tasks d toId := by
  rw [hasPath_iff_reachesAvoiding, reaches_iff_reachesAvoiding]

/-- The rejection message
`f"Cannot add '{dep_name}' - would create circular dependency"`. -/
def circularMsg (depName : String) : String :=
  "Cannot add \x27" ++ depName ++ "\x27 - would create circular dependency"

/-- `dep_task.title if dep_task else "Unknown"` (`src/ui/views/tasks.py:629-630`). -/
def depDisplayName (tasks : List TaskNode) (d : String) : String :=
  match lookupTask tasks d with
  | some tk => tk.title
  | Option.none => "Unknown"

/-- The `for dep_id in new_deps` loop of `_check_circular_dependency`
(`src/ui/views/tasks.py:626-633`): the first candidate from which the
subject is reachable aborts with `(False, message)`; otherwise `(True, None)`. -/
def checkCircularLoop (tasks : List TaskNode) (subjectId : String) :
    List String → Bool × Option String
  | [] => (true, Option.none)
  | d :: rest =>
      if hasPath tasks subjectId d ∅ then
        (false, some (circularMsg (depDisplayName tasks d)))
      else checkCircularLoop tasks subjectId rest

/-- `TaskDialog._check_circular_dependency(new_deps)`
(`src/ui/views/tasks.py:600-633`) for an existing subject task with id
`subjectId` (when the dialog has no subject task the method returns
`(True, None)` before reaching this loop). -/
def checkCircularDependency (tasks : List TaskNode) (subjectId : String)
    (newDeps : List String) : Bool × Option String :=
  checkCircularLoop tasks subjectId newDeps

/-- C5: the cycle check rejects (returns `False` as its first component)
exactly when some proposed dependency id reaches the subject task's id along
the stored dependency edges (including the degenerate case of proposing the
subject itself); on rejection the message names the conflicting task via its
title, and on acceptance no message is produced. -/
theorem checkCircular_rejects_iff (tasks : List TaskNode) (subjectId : String)
    (newDeps : List String) :
    ((checkCircularDependency tasks subjectId newDeps).1 = false ↔
       ∃ d ∈ newDeps, Reaches tasks d subjectId)
  ∧ ((checkCircularDependency tasks subjectId newDeps).1 = false →
       ∃ d ∈ newDeps, Reaches tasks d subjectId ∧
         (checkCircularDependency tasks subjectId newDeps).2 =
           some (circularMsg (depDisplayName tasks d)))
  ∧ ((checkCircularDependency tasks subjectId newDeps).1 = true →
       (checkCircularDependency tasks subjectId newDeps).2 = Option.none) := by
  unfold checkCircularDependency
  induction newDeps with
  | nil =>
      refine ⟨?_, ?_, ?_⟩
      · simp [checkCircularLoop]
      · intro h; simp [checkCircularLoop] at h
      · intro _; rfl
  | cons d rest ih =>
      rw [checkCircularLoop]
      cases hp : hasPath tasks subjectId d ∅ with
      | true =>
          have hr : Reaches tasks d subjectId := (hasPath_iff_reaches _ _ _).1 hp
          refine ⟨?_, ?_, ?_⟩
          · simp only [hp, if_true]
            constructor
            · intro _
              exact ⟨d, List.mem_cons_self _ _, hr⟩
            · intro _
              first
                | rfl
                | trivial
          · intro _
            simp only [hp, if_true]
            exact ⟨d, List.mem_cons_self _ _, hr, rfl⟩
          · intro h
            simp only [hp, if_true] at h
            cases h
      | false =>
          simp only [hp, Bool.false_eq_true, if_false]
          refine ⟨?_, ?_, ih.2.2⟩
          · rw [ih.1]
            constructor
            · rintro ⟨x, hx, hrx⟩; exact ⟨x, List.mem_cons_of_mem _ hx, hrx⟩
            · rintro ⟨x, hx, hrx⟩
              rcases List.mem_cons.1 hx with hx | hx
              · subst hx
                rw [(hasPath_iff_reaches _ _ _).2 hrx] at hp
                cases hp
              · exact ⟨x, hx, hrx⟩
          · intro h
            obtain ⟨x, hx, hrx, hmsg⟩ := ih.2.1 h
            exact ⟨x, List.mem_cons_of_mem _ hx, hrx, hmsg⟩

/-- The `for dep_id in self.task.dependencies` loop of
`_check_incomplete_dependencies` (`src/ui/views/tasks.py:643-646`),
collecting the titles of dependencies that resolve to a task whose status is
not "completed". -/
def collectIncomplete (tasks : List TaskNode) : List String → List String
  | [] => []
  | d :: rest =>
      match lookupTask tasks d with
      | some dt =>
          if dt.status ≠ "completed" then dt.title :: collectIncomplete tasks rest
          else collectIncomplete tasks rest
      | Option.none => collectIncomplete tasks rest

/-- `TaskDialog._check_incomplete_dependencies()`
(`src/ui/views/tasks.py:635-648`) for a dialog whose subject task is `t`:
returns `(has_incomplete, titles)`.  The guard
`if not self.task or not self.task.dependencies` is the `isEmpty` branch. -/
def checkIncompleteDependencies (tasks : List TaskNode) (t : TaskNode) :
    Bool × List String :=
  if t.dependencies.isEmpty then (false, [])
  else
    (decide (0 < (collectIncomplete tasks t.dependencies).length),
     collectIncomplete tasks t.dependencies)

theorem collectIncomplete_eq_filterMap (tasks : List TaskNode) (deps : List String) :
    collectIncomplete tasks deps =
      deps.filterMap (fun d =>
        match lookupTask tasks d with
        | some dt => if dt.status ≠ "completed" then some dt.title else Option.none
        | Option.none => Option.none) := by
  induction deps with
  | nil => rfl
  | cons d rest ih =>
      rw [collectIncomplete, List.filterMap_cons]
      cases hl : lookupTask tasks d with
      | none => simpa using ih
      | some dt =>
          by_cases hs : dt.status = "completed"
          · simp [hs, ih]
          · simp [hs, ih]

theorem collectIncomplete_eq_nil_iff (tasks : List TaskNode) (deps : List String) :
    collectIncomplete tasks deps = [] ↔
      ∀ d ∈ deps, ∀ dt, lookupTask tasks d = some dt → dt.status = "completed" := by
  induction deps with
  | nil => simp [collectIncomplete]
  | cons d rest ih =>
      rw [collectIncomplete]
      cases hl : lookupTask tasks d with
      | none =>
          rw [ih]
          constructor
          · intro h x hx dt hdt
            rcases List.mem_cons.1 hx with hx | hx
            · subst hx; rw [hl] at hdt; cases hdt
            · exact h x hx dt hdt
          · intro h x hx dt hdt
            exact h x (List.mem_cons_of_mem _ hx) dt hdt
      | some dt =>
          by_cases hs : dt.status = "completed"
          · simp only [hs, ne_eq, not_true_eq_false, if_false, ih]
            constructor
            · intro h x hx dt' hdt'
              rcases List.mem_cons.1 hx with hx | hx
              · subst hx; rw [hl] at hdt'; cases hdt'; exact hs
              · exact h x hx dt' hdt'
            · intro h x hx dt' hdt'
              exact h x (List.mem_cons_of_mem _ hx) dt' hdt'
          · simp only [hs, ne_eq, not_false_eq_true, if_true]
            constructor
            · intro h; cases h
            · intro h
              exact absurd (h d (List.mem_cons_self _ _) dt hl) hs

/-- C6: the completion gate permits the transition (returns `False` in its
first component) exactly when every dependency id that resolves to an
existing task resolves to a completed one — dangling ids never block — and
its second component is precisely the list of titles of the unmet
dependencies. -/
theorem checkIncomplete_correct (tasks : List TaskNode) (t : TaskNode) :
    ((checkIncompleteDependencies tasks t).1 = false ↔
       ∀ d ∈ t.dependencies, ∀ dt, lookupTask tasks d = some dt →
         dt.status = "completed")
  ∧ ((checkIncompleteDependencies tasks t).2 =
       t.dependencies.filterMap (fun d =>
         match lookupTask tasks d with
         | some dt => if dt.status ≠ "completed" then some dt.title else Option.none
         | Option.none => Option.none)) := by
  unfold checkIncompleteDependencies
  cases he : t.dependencies.isEmpty with
  | true =>
      rw [List.isEmpty_iff] at he
      rw [he]
      simp
  | false =>
      simp only [he, Bool.false_eq_true, if_false]
      constructor
      · show decide (0 < (collectIncomplete tasks t.dependencies).length) = false ↔ _
        rw [decide_eq_false_iff_not, Nat.not_lt, Nat.le_zero, List.length_eq_zero]
        exact collectIncomplete_eq_nil_iff tasks t.dependencies
      · show collectIncomplete tasks t.dependencies = _
        exact collectIncomplete_eq_filterMap tasks t.dependencies

/-- A concrete loaded task set: `A` depends on `B`; `C` and `D` are isolated. -/
def demoTasks : List TaskNode :=
  [⟨"A", "Design", "todo", ["B"]⟩, ⟨"B", "Build", "todo", []⟩,
   ⟨"C", "Test", "completed", []⟩, ⟨"D", "Other", "in_progress", []⟩]

theorem demoTasks_D_reaches_only_self :
    ∀ t, Reaches demoTasks "D" t → t = "D" := by
  intro t h
  cases h with
  | refl => rfl
  | @step _ _ d tk hl hd hchild =>
      have htk : tk = (⟨"D", "Other", "in_progress", []⟩ : TaskNode) :=
        Option.some.inj (hl.symm.trans (show lookupTask demoTasks "D" =
          some ⟨"D", "Other", "in_progress", []⟩ from rfl))
      subst htk
      simp at hd

/-- Witness for `checkCircular_rejects_iff` on `demoTasks`: with `A`
depending on `B`, proposing `A` as a dependency of `B` is rejected with a
message naming `A`'s title, while proposing the unrelated `D` is accepted. -/
theorem checkCircular_rejects_iff_witness :
    ((checkCircularDependency demoTasks "B" ["A"]).1 = false)
  ∧ (∃ d ∈ ["A"], Reaches demoTasks d "B" ∧
       (checkCircularDependency demoTasks "B" ["A"]).2 =
         some (circularMsg (depDisplayName demoTasks d)))
  ∧ ((checkCircularDependency demoTasks "B" ["D"]).1 = true)
  ∧ ((checkCircularDependency demoTasks "B" ["D"]).2 = Option.none) := by
  have h := checkCircular_rejects_iff demoTasks "B" ["A"]
  have hD := checkCircular_rejects_iff demoTasks "B" ["D"]
  have hrA : Reaches demoTasks "A" "B" :=
    @Reaches.step demoTasks "A" "B" "B" ⟨"A", "Design", "todo", ["B"]⟩ rfl
      (by simp) (Reaches.refl "B")
  have h1 : (checkCircularDependency demoTasks "B" ["A"]).1 = false :=
    h.1.2 ⟨"A", by simp, hrA⟩
  have hnoD : ¬ ∃ d ∈ ["D"], Reaches demoTasks d "B" := by
    rintro ⟨d, hd, hr⟩
    simp only [List.mem_singleton] at hd
    subst hd
    exact absurd (demoTasks_D_reaches_only_self "B" hr) (by decide)
  have h2 : (checkCircularDependency demoTasks "B" ["D"]).1 = true := by
    cases hval : (checkCircularDependency demoTasks "B" ["D"]).1 with
    | false => exact absurd (hD.1.1 hval) hnoD
    | true => rfl
  exact ⟨h1, h.2.1 h1, h2, hD.2.2 h2⟩

/-- Concrete evaluation of the completion gate on `demoTasks`: a task
depending on the incomplete `A` and the completed `C` is blocked and told the
title of exactly the unmet dependency; a task whose only dependency id is
dangling is allowed to complete. -/
theorem checkIncomplete_demo :
    (checkIncompleteDependencies demoTasks ⟨"E", "Ship", "todo", ["A", "C"]⟩ =
      (true, ["Design"]))
  ∧ (checkIncompleteDependencies demoTasks ⟨"F", "Free", "todo", ["ghost"]⟩ =
      (false, [])) := by
  exact ⟨rfl, rfl⟩

/-! ### Termination of the DFS (`has_path`), via a step-indexed variant -/

mutual

/-- Step-indexed (fuel) semantics of the recursive Python `has_path`: `none`
means the call would not have returned within `fuel` nested recursive calls.
The mutual structure mirrors `hasPath` / `anyDepPath` exactly, including the
short-circuiting of the dependency loop. -/
def hasPathFuel (tasks : List TaskNode) (toId : String) :
    Nat → String → Finset String → Option Bool
  | 0, _, _ => Option.none
  | fuel + 1, fromId, visited =>
      if fromId = toId then some true
      else if fromId ∈ visited then some false
      else
        match lookupTask tasks fromId with
        | Option.none => some false
        | some tk => anyDepPathFuel tasks toId fuel (insert fromId visited) tk.dependencies
termination_by fuel _ _ => (fuel, 0)

/-- Fuel-indexed version of the dependency loop of `has_path`. -/
def anyDepPathFuel (tasks : List TaskNode) (toId : String) :
    Nat → Finset String → List String → Option Bool
  | _, _, [] => some false
  | fuel, visited, d :: rest =>
      match hasPathFuel tasks toId fuel d visited with
      | Option.none => Option.none
      | some true => some true
      | some false => anyDepPathFuel tasks toId fuel visited rest
termination_by fuel _ deps => (fuel, deps.length + 1)
decreasing_by
  · apply Prod.Lex.right
    omega
  · apply Prod.Lex.right
    simp only [List.length_cons]
    omega

end

/-- With fuel exceeding the number of unvisited task ids, the step-indexed
search returns, and agrees with the total function `hasPath`. -/
theorem hasPathFuel_sufficient (tasks : List TaskNode) (toId : String) :
    ∀ fuel fromId visited, ((taskIds tasks) \ visited).card < fuel →
      hasPathFuel tasks toId fuel fromId visited =
        some (hasPath tasks toId fromId visited) := by
  intro fuel
  induction fuel with
  | zero => intro f v h; cases h
  | succ fuel ih =>
      intro f v hcard
      rw [hasPathFuel, hasPath]
      by_cases hft : f = toId
      · simp [hft]
      · rw [if_neg hft, if_neg hft]
        by_cases hv : f ∈ v
        · rw [if_pos hv, dif_pos hv]
        · rw [if_neg hv, dif_neg hv]
          cases hl : lookupTask tasks f with
          | none => rfl
          | some tk =>
              have hlt : ((taskIds tasks) \ insert f v).card < fuel := by
                have hss := Finset.card_lt_card
                  (sdiff_insert_ssubset (mem_taskIds_of_lookupTask hl) hv)
                omega
              have aux : ∀ deps,
                  anyDepPathFuel tasks toId fuel (insert f v) deps =
                    some (anyDepPath tasks toId (insert f v) deps) := by
                intro deps
                induction deps with
                | nil => rw [anyDepPathFuel, anyDepPath]
                | cons d rest ihd =>
                    rw [anyDepPathFuel, anyDepPath, ih d (insert f v) hlt]
                    cases hval : hasPath tasks toId d (insert f v) with
                    | true => rfl
                    | false => rw [ihd]; rfl
              exact aux tk.dependencies

/-- C9: the depth-first search `has_path` terminates on every finite task
set, including task sets whose stored dependency edges already contain
cycles or shared (diamond) dependencies: its step-indexed semantics returns
an answer within `tasks.length + 1` nested calls (the per-traversal visited
set bounds the recursion depth by the number of distinct task ids), and that
answer is the value of the total function `hasPath`. -/
theorem hasPath_terminates (tasks : List TaskNode) (toId fromId : String)
    (visited : Finset String) :
    hasPathFuel tasks toId (tasks.length + 1) fromId visited =
      some (hasPath tasks toId fromId visited) := by
  apply hasPathFuel_sufficient
  have h1 : ((taskIds tasks) \ visited).card ≤ (taskIds tasks).card :=
    Finset.card_le_card (Finset.sdiff_subset)
  have h2 : (taskIds tasks).card ≤ (tasks.map TaskNode.id).length :=
    List.toFinset_card_le _
  simp only [List.length_map] at h2
  omega

/-- A task set whose stored edges already form a cycle (`X` and `Y` depend
on each other) plus a diamond through the shared dependency `Z`. -/
def cycleDemoTasks : List TaskNode :=
  [⟨"X", "x", "todo", ["Y", "Z"]⟩, ⟨"Y", "y", "todo", ["X", "Z"]⟩,
   ⟨"Z", "z", "todo", []⟩]

/-- Witness for `hasPath_terminates`, at a concrete input whose dependency
edges contain a cycle and a shared (diamond) dependency: the step-indexed
search still returns an answer. -/
theorem hasPath_terminates_demo :
    hasPathFuel cycleDemoTasks "W" 4 "X" ∅ = some false := by
  have h := hasPath_terminates cycleDemoTasks "W" "X" ∅
  have hlen : cycleDemoTasks.length + 1 = 4 := by
    simp [cycleDemoTasks]
  rw [hlen] at h
  rw [h]
  have hnr : ¬ Reaches cycleDemoTasks "X" "W" := by
    intro hr
    have hclosed : ∀ s t, s ∈ (["X", "Y", "Z"] : List String) →
        Reaches cycleDemoTasks s t → t ∈ (["X", "Y", "Z"] : List String) := by
      intro s t hs hst
      induction hst with
      | refl x => exact hs
      | @step g t2 d tk hl hd hchild ihc =>
          obtain ⟨hmem, hid⟩ := lookupTask_mem hl
          apply ihc
          subst hid
          simp only [cycleDemoTasks, List.mem_cons, List.mem_singleton,
            List.not_mem_nil, or_false] at hmem
          rcases hmem with h1 | h1 | h1 <;> subst h1 <;>
            simp only [List.mem_cons, List.not_mem_nil, or_false] at hd <;>
            (rcases hd with rfl | rfl <;> simp)
    have := hclosed "X" "W" (by simp) hr
    simp at this
  cases hval : hasPath cycleDemoTasks "W" "X" ∅ with
  | false => rfl
  | true => exact absurd ((hasPath_iff_reaches _ _ _).1 hval) hnr

/-! ### Storage state: data files and the backup directory
(`src/data/storage.py`, `src/config.py`) -/

/-- `DEFAULT_SETTINGS` (`src/config.py:85-99`). -/
def DEFAULT_SETTINGS : PyVal := PyVal.dict
  [ ("theme", PyVal.str "system"),
    ("window_size", PyVal.dict [("width", PyVal.int 1280), ("height", PyVal.int 800)]),
    ("window_position", PyVal.dict [("x", PyVal.int 100), ("y", PyVal.int 100)]),
    ("default_project_color", PyVal.str "#E07B53"),
    ("work_hours_start", PyVal.str "09:00"),
    ("work_hours_end", PyVal.str "17:00"),
    ("notifications_enabled", PyVal.bool true),
    ("auto_backup", PyVal.bool true),
    ("backup_frequency_days", PyVal.int 1),
    ("show_completed_tasks", PyVal.bool true),
    ("task_sort_order", PyVal.str "priority"),
    ("first_launch", PyVal.bool true),
    ("last_backup", PyVal.none) ]

/-- `MAX_BACKUPS = 7` (`src/config.py:125`). -/
def MAX_BACKUPS : Nat := 7

/-- `BACKUP_FILE_PREFIX = "backup_"` (`src/config.py:126`). -/
def backupMark : String := "backup_"

/-- The content of a JSON file on disk, as seen through `json.load`: either
it parses to a value or raises `JSONDecodeError`. -/
inductive JsonData where
  | corrupt (raw : String) : JsonData
  | val (v : PyVal) : JsonData

/-- A data file that exists on disk: its (parsed-or-corrupt) content and its
modification time.  `shutil.copy2` preserves the modification time. -/
structure FileSt where
  data : JsonData
  mtime : Nat

/-- One file in the backup directory. -/
structure BackupFile where
  name : String
  mtime : Nat
  data : JsonData

/-- Python `name.startswith(p)`, at the character-list level (Lean's
`String.startsWith` is irreducible for the kernel; this is its semantics). -/
def strStartsWith (s p : String) : Bool :=
  p.data.isPrefixOf s.data

/-- `backup_name = f"{BACKUP_FILE_PREFIX}{file_path.stem}_{timestamp}.json"`
(`src/data/storage.py:92`). -/
def mkBackupName (stem ts : String) : String :=
  backupMark ++ stem ++ "_" ++ ts ++ ".json"

/-- `f.name.startswith(f"{BACKUP_FILE_PREFIX}{file_stem}_")`
(`src/data/storage.py:100-102`). -/
def matchesStem (stem : String) (name : String) : Bool :=
  strStartsWith name (backupMark ++ stem ++ "_")

theorem matchesStem_mkBackupName (stem ts : String) :
    matchesStem stem (mkBackupName stem ts) = true := by
  rw [matchesStem, mkBackupName, strStartsWith, List.isPrefixOf_iff_prefix]
  simp only [String.data_append]
  rw [List.append_assoc, List.append_assoc]
  rw [← List.append_assoc (backupMark.data)]
  exact (backupMark.data ++ stem.data ++ "_".data).prefix_append _

/-- The descending order used by both `_cleanup_old_backups` and
`_restore_from_backup`: `sorted(..., key=lambda x: x.stat().st_mtime,
reverse=True)`. -/
def mtimeGE (a b : BackupFile) : Prop := b.mtime ≤ a.mtime

instance : DecidableRel mtimeGE := fun a b => Nat.decLe _ _

instance : IsTotal BackupFile mtimeGE :=
  ⟨fun a b => (Nat.le_total a.mtime b.mtime).symm⟩

instance : IsTrans BackupFile mtimeGE :=
  ⟨fun _ _ _ hab hbc => le_trans hbc hab⟩

/-- `_cleanup_old_backups(file_stem)` (`src/data/storage.py:98-109`): sort
the backups whose names carry this stem by modification time, newest first,
and delete (`unlink`) every file beyond the first `MAX_BACKUPS`. -/
def cleanupOldBackups (stem : String) (dir : List BackupFile) : List BackupFile :=
  let backups := (dir.filter (fun b => matchesStem stem b.name)).insertionSort mtimeGE
  let doomed := backups.drop MAX_BACKUPS
  dir.filter (fun b => decide (¬ ∃ d2 ∈ doomed, d2.name = b.name))

/-- Writing (`shutil.copy2`) a file into the backup directory: a file of the
same name is overwritten, otherwise the file is added. -/
def dirInsert (b : BackupFile) (dir : List BackupFile) : List BackupFile :=
  b :: dir.filter (fun b2 => decide (b2.name ≠ b.name))

/-- `_create_backup(file_path)` (`src/data/storage.py:86-96`): no-op when the
file does not exist; otherwise copy it (content and mtime, via `copy2`) to
`BACKUP_DIR` under a timestamped name and prune old backups of the same stem. -/
def createBackup (file : Option FileSt) (stem ts : String)
    (dir : List BackupFile) : List BackupFile :=
  match file with
  | Option.none => dir
  | some f => cleanupOldBackups stem (dirInsert ⟨mkBackupName stem ts, f.mtime, f.data⟩ dir)

/-- The head of the mtime-descending sort is the strict maximum, when one
exists. -/
theorem insertionSort_head_of_max {l : List BackupFile} {x : BackupFile} (hx : x ∈ l)
    (hmax : ∀ y ∈ l, y ≠ x → y.mtime < x.mtime) :
    ∃ tail, l.insertionSort mtimeGE = x :: tail := by
  have hperm := List.perm_insertionSort mtimeGE l
  have hsorted := List.sorted_insertionSort mtimeGE l
  cases hs : l.insertionSort mtimeGE with
  | nil =>
      rw [hs] at hperm
      exact absurd (hperm.mem_iff.2 hx) (by simp)
  | cons h tail =>
      refine ⟨tail, ?_⟩
      rw [hs] at hperm hsorted
      by_cases hhx : h = x
      · rw [hhx]
      · exfalso
        have hhl : h ∈ l := hperm.mem_iff.1 (List.mem_cons_self _ _)
        have h1 : h.mtime < x.mtime := hmax h hhl hhx
        have hx2 : x ∈ h :: tail := hperm.mem_iff.2 hx
        rcases List.mem_cons.1 hx2 with h2 | h2
        · exact hhx h2.symm
        · have h3 : mtimeGE h x := (List.sorted_cons.1 hsorted).1 x h2
          rw [mtimeGE] at h3
          omega

/-- Deleting, out of a directory listing with distinct file names, exactly
the files listed beyond position `n` keeps exactly the first `n`. -/
theorem filter_not_mem_drop {l : List BackupFile}
    (hnd : (l.map BackupFile.name).Nodup) (n : Nat) :
    l.filter (fun b => decide (¬ ∃ d2 ∈ l.drop n, d2.name = b.name)) = l.take n := by
  induction l generalizing n with
  | nil => simp
  | cons x xs ih =>
      simp only [List.map_cons, List.nodup_cons, List.mem_map] at hnd
      obtain ⟨hx, hxs⟩ := hnd
      cases n with
      | zero =>
          rw [List.drop_zero, List.take_zero, List.filter_eq_nil_iff]
          intro b hb
          simp only [decide_eq_true_eq, not_not]
          exact ⟨b, hb, rfl⟩
      | succ n =>
          rw [List.drop_succ_cons, List.take_succ_cons, List.filter_cons]
          have hxpred : (decide (¬ ∃ d2 ∈ xs.drop n, d2.name = x.name)) = true := by
            simp only [decide_eq_true_eq, not_exists, not_and]
            intro d2 hd2 hname
            exact hx ⟨d2, List.mem_of_mem_drop hd2, hname⟩
          rw [hxpred, if_pos rfl, ih hxs n]

/-- The filter-by-stem of a `cleanupOldBackups`-processed directory, when the
matching entries already carry pairwise distinct names and are already listed
newest-first: the newest `MAX_BACKUPS` matching entries survive, and
non-matching entries are untouched. -/
theorem cleanupOldBackups_spec (stem : String) (dir : List BackupFile)
    (hnd : ((dir.filter (fun b => matchesStem stem b.name)).map BackupFile.name).Nodup)
    (hsorted : ((dir.filter (fun b => matchesStem stem b.name)).insertionSort mtimeGE) =
       dir.filter (fun b => matchesStem stem b.name)) :
    ((cleanupOldBackups stem dir).filter (fun b => matchesStem stem b.name) =
       (dir.filter (fun b => matchesStem stem b.name)).take MAX_BACKUPS)
  ∧ ((cleanupOldBackups stem dir).filter
       (fun b => decide (¬ matchesStem stem b.name = true)) =
       dir.filter (fun b => decide (¬ matchesStem stem b.name = true))) := by
  constructor
  · simp only [cleanupOldBackups]
    rw [List.filter_comm, hsorted]
    exact filter_not_mem_drop hnd MAX_BACKUPS
  · simp only [cleanupOldBackups]
    rw [List.filter_comm, hsorted]
    rw [List.filter_eq_self]
    intro b hb
    simp only [decide_eq_true_eq, not_exists, not_and]
    intro d2 hd2 hname
    have hd2m : d2 ∈ dir.filter (fun b => matchesStem stem b.name) :=
      List.mem_of_mem_drop hd2
    have hbm := (List.mem_filter.1 hb).2
    simp only [decide_eq_true_eq] at hbm
    have hd2m2 : matchesStem stem d2.name = true := by
      simpa using (List.mem_filter.1 hd2m).2
    rw [hname] at hd2m2
    exact hbm hd2m2

/-- The snapshot just taken survives the pruning pass whenever it is strictly
newer than every existing backup of its stem and its name is fresh (backup
directory names are unique on a real filesystem). -/
theorem createBackup_mem (stem ts : String) (f : FileSt) (dir : List BackupFile)
    (hfresh : ∀ b ∈ dir, b.name ≠ mkBackupName stem ts)
    (hlt : ∀ b ∈ dir, matchesStem stem b.name = true → b.mtime < f.mtime)
    (hnd : ((dir.filter (fun b => matchesStem stem b.name)).map BackupFile.name).Nodup) :
    (⟨mkBackupName stem ts, f.mtime, f.data⟩ : BackupFile) ∈
      createBackup (some f) stem ts dir := by
  set nb : BackupFile := ⟨mkBackupName stem ts, f.mtime, f.data⟩ with hnb
  have hins : dirInsert nb dir = nb :: dir := by
    rw [dirInsert]
    congr 1
    rw [List.filter_eq_self]
    intro b hb
    simpa using hfresh b hb
  rw [createBackup, hins]
  set M := (nb :: dir).filter (fun b => matchesStem stem b.name) with hM
  have hMeq : M = nb :: dir.filter (fun b => matchesStem stem b.name) := by
    rw [hM, List.filter_cons]
    have : matchesStem stem nb.name = true := matchesStem_mkBackupName stem ts
    rw [this, if_pos rfl]
  have hndM : (M.map BackupFile.name).Nodup := by
    rw [hMeq, List.map_cons, List.nodup_cons]
    refine ⟨?_, hnd⟩
    intro hmem
    obtain ⟨b, hb, hbname⟩ := List.mem_map.1 hmem
    exact hfresh b (List.mem_filter.1 hb).1 hbname
  have hhead : ∃ tail, M.insertionSort mtimeGE = nb :: tail := by
    apply insertionSort_head_of_max
    · rw [hMeq]; exact List.mem_cons_self _ _
    · intro y hy hyne
      rw [hMeq] at hy
      rcases List.mem_cons.1 hy with h | h
      · exact absurd h hyne
      · exact hlt y (List.mem_filter.1 h).1 (by simpa using (List.mem_filter.1 h).2)
  obtain ⟨tail, hs⟩ := hhead
  have hndS : ((M.insertionSort mtimeGE).map BackupFile.name).Nodup := by
    have hperm := (List.perm_insertionSort mtimeGE M).map BackupFile.name
    exact hperm.nodup_iff.2 hndM
  rw [hs, List.map_cons, List.nodup_cons] at hndS
  simp only [cleanupOldBackups]
  apply List.mem_filter.2
  refine ⟨List.mem_cons_self _ _, ?_⟩
  simp only [decide_eq_true_eq, not_exists, not_and]
  intro d2 hd2 hname
  rw [← hM, hs] at hd2
  have hd2tail : d2 ∈ tail := by
    have : MAX_BACKUPS = 6 + 1 := rfl
    rw [this, List.drop_succ_cons] at hd2
    exact List.mem_of_mem_drop hd2
  exact hndS.1 (List.mem_map.2 ⟨d2, hd2tail, hname⟩)

/-- One pruning round after a strictly-newer snapshot, on a directory whose
matching entries are listed newest-first with distinct names: the matching
entries become the new snapshot followed by the previous matching entries,
truncated to `MAX_BACKUPS`. -/
theorem createBackup_step (stem ts : String) (f : FileSt) (dir : List BackupFile)
    (hfresh : ∀ b ∈ dir, b.name ≠ mkBackupName stem ts)
    (hlt : ∀ b ∈ dir, matchesStem stem b.name = true → b.mtime < f.mtime)
    (hnd : ((dir.filter (fun b => matchesStem stem b.name)).map BackupFile.name).Nodup)
    (hsorted : List.Pairwise (fun a b => b.mtime < a.mtime)
        (dir.filter (fun b => matchesStem stem b.name))) :
    (createBackup (some f) stem ts dir).filter (fun b => matchesStem stem b.name) =
      ((⟨mkBackupName stem ts, f.mtime, f.data⟩ : BackupFile) ::
        dir.filter (fun b => matchesStem stem b.name)).take MAX_BACKUPS := by
  set nb : BackupFile := ⟨mkBackupName stem ts, f.mtime, f.data⟩ with hnb
  have hins : dirInsert nb dir = nb :: dir := by
    rw [dirInsert]
    congr 1
    rw [List.filter_eq_self]
    intro b hb
    simpa using hfresh b hb
  rw [createBackup, hins]
  have hMeq : (nb :: dir).filter (fun b => matchesStem stem b.name) =
      nb :: dir.filter (fun b => matchesStem stem b.name) := by
    rw [List.filter_cons]
    have : matchesStem stem nb.name = true := matchesStem_mkBackupName stem ts
    rw [this, if_pos rfl]
  have hndM : (((nb :: dir).filter (fun b => matchesStem stem b.name)).map
      BackupFile.name).Nodup := by
    rw [hMeq, List.map_cons, List.nodup_cons]
    refine ⟨?_, hnd⟩
    intro hmem
    obtain ⟨b, hb, hbname⟩ := List.mem_map.1 hmem
    exact hfresh b (List.mem_filter.1 hb).1 hbname
  have hsortedM : (((nb :: dir).filter
      (fun b => matchesStem stem b.name)).insertionSort mtimeGE) =
      (nb :: dir).filter (fun b => matchesStem stem b.name) := by
    apply List.Sorted.insertionSort_eq
    rw [hMeq]
    rw [List.sorted_cons]
    constructor
    · intro y hy
      have h1 : y.mtime < f.mtime :=
        hlt y (List.mem_filter.1 hy).1 (by simpa using (List.mem_filter.1 hy).2)
      have h2 : nb.mtime = f.mtime := by rw [hnb]
      rw [mtimeGE, h2]
      omega
    · exact hsorted.imp (fun h => by rw [mtimeGE]; omega)
  have := (cleanupOldBackups_spec stem (nb :: dir) hndM hsortedM).1
  rw [this, hMeq]

/-- The storage-manager state: the three data files and the backup
directory (`DATA_DIR` / `BACKUP_DIR`). -/
structure StoreFS where
  projectsFile : Option FileSt
  tasksFile : Option FileSt
  settingsFile : Option FileSt
  backups : List BackupFile

/-- `save_project(project)` (`src/data/storage.py:145-163`) as a filesystem
transition: `_create_backup(PROJECTS_FILE)` first, then the atomic write of
the re-serialized collection.  `newData` is the written payload (the
collection-level content is modelled separately by `saveTaskFile`), `ts` the
backup timestamp, `newMtime` the written file's modification time. -/
def saveProjectFS (st : StoreFS) (newData : JsonData) (ts : String)
    (newMtime : Nat) : StoreFS :=
  { st with backups := createBackup st.projectsFile "projects" ts st.backups,
            projectsFile := some ⟨newData, newMtime⟩ }

/-- `delete_project(project_id)` (`src/data/storage.py:165-172`): same
snapshot-then-write shape as `save_project`. -/
def deleteProjectFS (st : StoreFS) (newData : JsonData) (ts : String)
    (newMtime : Nat) : StoreFS :=
  { st with backups := createBackup st.projectsFile "projects" ts st.backups,
            projectsFile := some ⟨newData, newMtime⟩ }

/-- `save_task(task)` (`src/data/storage.py:194-212`). -/
def saveTaskFS (st : StoreFS) (newData : JsonData) (ts : String)
    (newMtime : Nat) : StoreFS :=
  { st with backups := createBackup st.tasksFile "tasks" ts st.backups,
            tasksFile := some ⟨newData, newMtime⟩ }

/-- `delete_task(task_id)` (`src/data/storage.py:214-221`). -/
def deleteTaskFS (st : StoreFS) (newData : JsonData) (ts : String)
    (newMtime : Nat) : StoreFS :=
  { st with backups := createBackup st.tasksFile "tasks" ts st.backups,
            tasksFile := some ⟨newData, newMtime⟩ }

/-- `save_settings(settings)` (`src/data/storage.py:230-232`): a single
`_write_json` call — unlike the project/task operations there is **no**
`_create_backup` call. -/
def saveSettingsFS (st : StoreFS) (newData : JsonData) (newMtime : Nat) : StoreFS :=
  { st with settingsFile := some ⟨newData, newMtime⟩ }

/-- C4 counterexample: a store whose settings file exists; `save_settings`
writes the new content but creates no backup at all (the backup directory
stays empty), contradicting the claim that every mutating write — including
`save_settings` — snapshots the pre-mutation file. -/
theorem saveSettings_no_backup_counterexample :
    ((⟨Option.none, Option.none, some ⟨JsonData.val (PyVal.dict []), 5⟩, []⟩ :
        StoreFS).settingsFile.isSome = true)
  ∧ ((saveSettingsFS ⟨Option.none, Option.none,
        some ⟨JsonData.val (PyVal.dict []), 5⟩, []⟩
        (JsonData.val DEFAULT_SETTINGS) 6).backups = []) := by
  exact ⟨rfl, rfl⟩

/-- C4 amended: `save_project`, `delete_project`, `save_task` and
`delete_task` snapshot the pre-mutation file content (with its modification
time, via `copy2`) into the backup directory before writing, whenever the
target file exists — the snapshot hypotheses say the new backup name is
fresh and the file is newer than the existing backups of its stem, as on a
real filesystem with a monotone clock; when the target file does not exist
the snapshot step is a no-op and the write still proceeds.  `save_settings`
performs no snapshot at all: it writes the new content with the backup
directory untouched. -/
theorem backup_before_write_amended (st : StoreFS) (newData : JsonData)
    (ts : String) (newMtime : Nat) :
    (∀ f, st.projectsFile = some f →
       (∀ b ∈ st.backups, b.name ≠ mkBackupName "projects" ts) →
       (∀ b ∈ st.backups, matchesStem "projects" b.name = true → b.mtime < f.mtime) →
       ((st.backups.filter (fun b => matchesStem "projects" b.name)).map
          BackupFile.name).Nodup →
       ((⟨mkBackupName "projects" ts, f.mtime, f.data⟩ : BackupFile) ∈
           (saveProjectFS st newData ts newMtime).backups
         ∧ (⟨mkBackupName "projects" ts, f.mtime, f.data⟩ : BackupFile) ∈
           (deleteProjectFS st newData ts newMtime).backups))
  ∧ (st.projectsFile = Option.none →
       (saveProjectFS st newData ts newMtime).backups = st.backups
         ∧ (deleteProjectFS st newData ts newMtime).backups = st.backups)
  ∧ (∀ f, st.tasksFile = some f →
       (∀ b ∈ st.backups, b.name ≠ mkBackupName "tasks" ts) →
       (∀ b ∈ st.backups, matchesStem "tasks" b.name = true → b.mtime < f.mtime) →
       ((st.backups.filter (fun b => matchesStem "tasks" b.name)).map
          BackupFile.name).Nodup →
       ((⟨mkBackupName "tasks" ts, f.mtime, f.data⟩ : BackupFile) ∈
           (saveTaskFS st newData ts newMtime).backups
         ∧ (⟨mkBackupName "tasks" ts, f.mtime, f.data⟩ : BackupFile) ∈
           (deleteTaskFS st newData ts newMtime).backups))
  ∧ (st.tasksFile = Option.none →
       (saveTaskFS st newData ts newMtime).backups = st.backups
         ∧ (deleteTaskFS st newData ts newMtime).backups = st.backups)
  ∧ ((saveSettingsFS st newData newMtime).backups = st.backups
       ∧ (saveSettingsFS st newData newMtime).settingsFile = some ⟨newData, newMtime⟩
       ∧ (saveProjectFS st newData ts newMtime).projectsFile = some ⟨newData, newMtime⟩
       ∧ (saveTaskFS st newData ts newMtime).tasksFile = some ⟨newData, newMtime⟩) := by
  refine ⟨?_, ?_, ?_, ?_, rfl, rfl, rfl, rfl⟩
  · intro f hf hfresh hlt hnd
    have h := createBackup_mem "projects" ts f st.backups hfresh hlt hnd
    constructor
    · show _ ∈ createBackup st.projectsFile "projects" ts st.backups
      rw [hf]; exact h
    · show _ ∈ createBackup st.projectsFile "projects" ts st.backups
      rw [hf]; exact h
  · intro hf
    constructor
    · show createBackup st.projectsFile "projects" ts st.backups = st.backups
      rw [hf]; rfl
    · show createBackup st.projectsFile "projects" ts st.backups = st.backups
      rw [hf]; rfl
  · intro f hf hfresh hlt hnd
    have h := createBackup_mem "tasks" ts f st.backups hfresh hlt hnd
    constructor
    · show _ ∈ createBackup st.tasksFile "tasks" ts st.backups
      rw [hf]; exact h
    · show _ ∈ createBackup st.tasksFile "tasks" ts st.backups
      rw [hf]; exact h
  · intro hf
    constructor
    · show createBackup st.tasksFile "tasks" ts st.backups = st.backups
      rw [hf]; rfl
    · show createBackup st.tasksFile "tasks" ts st.backups = st.backups
      rw [hf]; rfl

/-- Witness for `backup_before_write_amended`: a store whose projects file
exists and whose backup directory is empty; `save_project` leaves a snapshot
of the pre-mutation content in the backup directory. -/
theorem backup_before_write_amended_witness :
    (⟨mkBackupName "projects" "20240101_120000", 5,
        JsonData.val (PyVal.list [])⟩ : BackupFile) ∈
      (saveProjectFS ⟨some ⟨JsonData.val (PyVal.list []), 5⟩, Option.none,
          Option.none, []⟩
        (JsonData.val (PyVal.list [PyVal.dict []])) "20240101_120000" 9).backups := by
  have h := (backup_before_write_amended
    ⟨some ⟨JsonData.val (PyVal.list []), 5⟩, Option.none, Option.none, []⟩
    (JsonData.val (PyVal.list [PyVal.dict []])) "20240101_120000" 9).1
    ⟨JsonData.val (PyVal.list []), 5⟩ rfl
    (by intro b hb; cases hb) (by intro b hb; cases hb) (by simp)
  exact h.1

/-- `_restore_from_backup(file_path)` (`src/data/storage.py:111-128`): pick
the most recently modified backup whose name carries this stem; if one
exists, copy it over the primary file (`copy2`, so content and mtime) and
`json.load` it — this second `json.load` is *not* guarded, so a corrupt
backup raises `JSONDecodeError` out of the method; with no backups, return
`[]`, or `DEFAULT_SETTINGS` when the path is `SETTINGS_FILE`.  The result is
the primary file afterwards together with the returned value or the raised
error. -/
def restoreFromBackup (stem : String) (primary : Option FileSt)
    (dir : List BackupFile) : Option FileSt × Except String PyVal :=
  match (dir.filter (fun b => matchesStem stem b.name)).insertionSort mtimeGE with
  | [] => (primary, Except.ok (if stem ≠ "settings" then PyVal.list []
                               else DEFAULT_SETTINGS))
  | b :: _ =>
      (some ⟨b.data, b.mtime⟩,
       match b.data with
       | JsonData.val v => Except.ok v
       | JsonData.corrupt _ => Except.error "JSONDecodeError")

/-- `_read_json(file_path)` (`src/data/storage.py:74-84`):

    try:
        with open(file_path, ...) as f: return json.load(f)
    except json.JSONDecodeError:
        return self._restore_from_backup(file_path)
    except FileNotFoundError:
        return None

A missing file returns Python `None` (there is no default-value parameter);
a corrupt file goes through backup restoration. -/
def readJson (stem : String) (primary : Option FileSt)
    (dir : List BackupFile) : Option FileSt × Except String PyVal :=
  match primary with
  | Option.none => (primary, Except.ok PyVal.none)
  | some f =>
      match f.data with
      | JsonData.val v => (primary, Except.ok v)
      | JsonData.corrupt _ => restoreFromBackup stem primary dir

/-- C2 counterexample: reading an absent projects file returns Python `None`,
not the empty-list default the claim promises; and when the primary file is
corrupt and the most recent (only) backup is itself corrupt, the read raises
`JSONDecodeError` instead of returning the default without raising. -/
theorem readJson_counterexample :
    ((readJson "projects" Option.none []).2 = Except.ok PyVal.none)
  ∧ (PyVal.none ≠ PyVal.list [])
  ∧ ((readJson "projects" (some ⟨JsonData.corrupt "oops", 5⟩)
        [⟨mkBackupName "projects" "20240101_120000", 3, JsonData.corrupt "bad"⟩]).2 =
      Except.error "JSONDecodeError") := by
  refine ⟨rfl, by simp, ?_⟩
  rw [readJson, restoreFromBackup]
  have hm : matchesStem "projects" (mkBackupName "projects" "20240101_120000") = true :=
    matchesStem_mkBackupName _ _
  rw [List.filter_cons, hm, if_pos rfl, List.filter_nil]
  rfl

/-- C2 amended: reading an absent file returns Python `None` (`_read_json`
has no default-value parameter) with no recovery attempt; a parsable file is
returned as parsed; a corrupt file with no backup of the same stem returns
the default (`[]` for collections, `DEFAULT_SETTINGS` for the settings file)
with the primary file left as-is; a corrupt file with at least one backup of
the same stem gets the most recently modified such backup copied over the
primary file, whose parsed content is returned — unless that backup is
itself unparsable, in which case `JSONDecodeError` propagates (it is raised
by the unguarded `json.load` inside `_restore_from_backup`). -/
theorem readJson_recovery_amended (stem : String) (f : FileSt)
    (dir : List BackupFile) :
    (readJson stem Option.none dir = (Option.none, Except.ok PyVal.none))
  ∧ (∀ v, f.data = JsonData.val v →
       readJson stem (some f) dir = (some f, Except.ok v))
  ∧ (∀ raw, f.data = JsonData.corrupt raw →
       dir.filter (fun b => matchesStem stem b.name) = [] →
       readJson stem (some f) dir =
         (some f, Except.ok (if stem ≠ "settings" then PyVal.list []
                             else DEFAULT_SETTINGS)))
  ∧ (∀ raw b, f.data = JsonData.corrupt raw →
       b ∈ dir → matchesStem stem b.name = true →
       (∀ b2 ∈ dir, matchesStem stem b2.name = true → b2 ≠ b → b2.mtime < b.mtime) →
       readJson stem (some f) dir =
         (some ⟨b.data, b.mtime⟩,
          match b.data with
          | JsonData.val v => Except.ok v
          | JsonData.corrupt _ => Except.error "JSONDecodeError")) := by
  refine ⟨rfl, ?_, ?_, ?_⟩
  · intro v hv
    rw [readJson, hv]
  · intro raw hraw hnob
    rw [readJson, hraw, restoreFromBackup, hnob]
    rfl
  · intro raw b hraw hb hbm hmax
    rw [readJson, hraw, restoreFromBackup]
    have hmem : b ∈ dir.filter (fun b => matchesStem stem b.name) :=
      List.mem_filter.2 ⟨hb, hbm⟩
    have hmax2 : ∀ y ∈ dir.filter (fun b => matchesStem stem b.name), y ≠ b →
        y.mtime < b.mtime := by
      intro y hy hyne
      exact hmax y (List.mem_filter.1 hy).1 (by simpa using (List.mem_filter.1 hy).2) hyne
    obtain ⟨tail, hs⟩ := insertionSort_head_of_max hmem hmax2
    rw [hs]

/-- Witness for `readJson_recovery_amended`: a corrupt primary tasks file
with two backups; the newer backup's content is restored over the primary
and returned. -/
theorem readJson_recovery_amended_witness :
    readJson "tasks" (some ⟨JsonData.corrupt "garbage", 9⟩)
      [⟨mkBackupName "tasks" "20240101_120000", 3,
          JsonData.val (PyVal.list [])⟩,
       ⟨mkBackupName "tasks" "20240102_120000", 4,
          JsonData.val (PyVal.list [PyVal.dict []])⟩] =
      (some ⟨JsonData.val (PyVal.list [PyVal.dict []]), 4⟩,
       Except.ok (PyVal.list [PyVal.dict []])) := by
  have h := (readJson_recovery_amended "tasks" ⟨JsonData.corrupt "garbage", 9⟩
    [⟨mkBackupName "tasks" "20240101_120000", 3, JsonData.val (PyVal.list [])⟩,
     ⟨mkBackupName "tasks" "20240102_120000", 4,
        JsonData.val (PyVal.list [PyVal.dict []])⟩]).2.2.2
    "garbage"
    ⟨mkBackupName "tasks" "20240102_120000", 4, JsonData.val (PyVal.list [PyVal.dict []])⟩
    rfl (by simp) (matchesStem_mkBackupName _ _) ?hmax
  · exact h
  case hmax =>
    intro b2 hb2 hm2 hne
    rcases List.mem_cons.1 hb2 with h1 | h1
    · rw [h1]
      show (3 : Nat) < 4
      omega
    · rcases List.mem_singleton.1 h1 with h2
      rw [h2] at hne
      exact absurd rfl hne

/-- The shared shape of one snapshot-producing save to the file of stem
`stem` (`save_project`, `delete_project`, `save_task`, `delete_task` all
follow it, see `saveProjectFS` etc.): `_create_backup` on the current file,
then the atomic write installs new content with a new modification time. -/
def saveStemFS (stem : String) (file : Option FileSt) (dir : List BackupFile)
    (newData : JsonData) (ts : String) (newMtime : Nat) :
    Option FileSt × List BackupFile :=
  (some ⟨newData, newMtime⟩, createBackup file stem ts dir)

/-- `N` successive saves to the same stem; each entry carries the written
payload, the backup timestamp and the new file modification time. -/
def runSaves (stem : String) :
    Option FileSt → List BackupFile → List (JsonData × String × Nat) →
      Option FileSt × List BackupFile
  | file, dir, [] => (file, dir)
  | file, dir, (nd, ts, nm) :: rest =>
      runSaves stem (saveStemFS stem file dir nd ts nm).1
        (saveStemFS stem file dir nd ts nm).2 rest

/-- The snapshots the successive saves create, in creation order: save `i`
snapshots the file content and modification time as they were before it ran. -/
def snapshotsOf (stem : String) :
    Option FileSt → List (JsonData × String × Nat) → List BackupFile
  | _, [] => []
  | Option.none, (nd, _, nm) :: rest => snapshotsOf stem (some ⟨nd, nm⟩) rest
  | some f, (nd, ts, nm) :: rest =>
      ⟨mkBackupName stem ts, f.mtime, f.data⟩ ::
        snapshotsOf stem (some ⟨nd, nm⟩) rest

theorem snapshotsOf_length (stem : String) (svs : List (JsonData × String × Nat)) :
    ∀ f : FileSt, (snapshotsOf stem (some f) svs).length = svs.length := by
  induction svs with
  | nil => intro f; rfl
  | cons s rest ih =>
      intro f
      obtain ⟨nd, ts, nm⟩ := s
      rw [snapshotsOf, List.length_cons, ih ⟨nd, nm⟩, List.length_cons]

theorem mem_createBackup_some {stem ts : String} {f : FileSt}
    {dir : List BackupFile} {b : BackupFile}
    (h : b ∈ createBackup (some f) stem ts dir) :
    b = (⟨mkBackupName stem ts, f.mtime, f.data⟩ : BackupFile) ∨ b ∈ dir := by
  simp only [createBackup, cleanupOldBackups] at h
  have h1 := (List.mem_filter.1 h).1
  rw [dirInsert] at h1
  rcases List.mem_cons.1 h1 with h2 | h2
  · exact Or.inl h2
  · exact Or.inr (List.mem_filter.1 h2).1

theorem take_append_take (A B : List BackupFile) (n : Nat) :
    (A ++ B.take n).take n = (A ++ B).take n := by
  rw [List.take_append_eq_append_take, List.take_append_eq_append_take,
    List.take_take]
  congr 1
  rw [Nat.min_eq_left (Nat.sub_le _ _)]

/-- The retention invariant over a run of saves: with fresh timestamped
names, strictly increasing modification times, and a sane backup directory
(matching entries newest-first, distinct names, at most `MAX_BACKUPS` of
them), the matching backups after the run are the newest `MAX_BACKUPS` of
"snapshots taken, newest first, then the pre-run backups". -/
theorem runSaves_matching (stem : String) :
    ∀ (svs : List (JsonData × String × Nat)) (f : FileSt) (dir : List BackupFile),
    (∀ b ∈ dir, ∀ s ∈ svs, b.name ≠ mkBackupName stem s.2.1) →
    (svs.map (fun s => mkBackupName stem s.2.1)).Nodup →
    List.Chain (fun a b => a < b) f.mtime (svs.map (fun s => s.2.2)) →
    (∀ b ∈ dir, matchesStem stem b.name = true → b.mtime < f.mtime) →
    ((dir.filter (fun b => matchesStem stem b.name)).map BackupFile.name).Nodup →
    List.Pairwise (fun a b => b.mtime < a.mtime)
      (dir.filter (fun b => matchesStem stem b.name)) →
    (dir.filter (fun b => matchesStem stem b.name)).length ≤ MAX_BACKUPS →
    (runSaves stem (some f) dir svs).2.filter (fun b => matchesStem stem b.name) =
      ((snapshotsOf stem (some f) svs).reverse ++
        dir.filter (fun b => matchesStem stem b.name)).take MAX_BACKUPS := by
  intro svs
  induction svs with
  | nil =>
      intro f dir _ _ _ _ _ _ hlen
      simp only [runSaves, snapshotsOf, List.reverse_nil, List.nil_append]
      exact (List.take_of_length_le hlen).symm
  | cons s rest ih =>
      intro f dir hfresh hnodup hchain hlt hnd hsorted hlen
      obtain ⟨nd, ts, nm⟩ := s
      rw [runSaves]
      set nb : BackupFile := ⟨mkBackupName stem ts, f.mtime, f.data⟩ with hnb
      have hstep : (createBackup (some f) stem ts dir).filter
          (fun b => matchesStem stem b.name) =
          (nb :: dir.filter (fun b => matchesStem stem b.name)).take MAX_BACKUPS := by
        rw [hnb]
        exact createBackup_step stem ts f dir
          (fun b hb => hfresh b hb _ (List.mem_cons_self _ _)) hlt hnd hsorted
      rw [List.map_cons, List.chain_cons] at hchain
      obtain ⟨hfm, hchain2⟩ := hchain
      rw [List.map_cons, List.nodup_cons] at hnodup
      obtain ⟨hts, hnodup2⟩ := hnodup
      have hKname : ∀ y ∈ dir.filter (fun b => matchesStem stem b.name),
          y.name ≠ nb.name := by
        intro y hy
        show y.name ≠ mkBackupName stem ts
        exact hfresh y (List.mem_filter.1 hy).1 _ (List.mem_cons_self _ _)
      have hKlt : ∀ y ∈ dir.filter (fun b => matchesStem stem b.name),
          y.mtime < nb.mtime := by
        intro y hy
        show y.mtime < f.mtime
        exact hlt y (List.mem_filter.1 hy).1
          (by simpa using (List.mem_filter.1 hy).2)
      have happ := ih ⟨nd, nm⟩ (createBackup (some f) stem ts dir)
        ?hfresh2 hnodup2 hchain2 ?hlt2 ?hnd2 ?hsorted2 ?hlen2
      · show (runSaves stem (some ⟨nd, nm⟩)
            (createBackup (some f) stem ts dir) rest).2.filter
            (fun b => matchesStem stem b.name) = _
        rw [happ, hstep, take_append_take, snapshotsOf, List.reverse_cons,
          List.append_assoc]
        rfl
      case hfresh2 =>
        intro b hb s2 hs2
        rcases mem_createBackup_some hb with h1 | h1
        · rw [h1]
          show mkBackupName stem ts ≠ mkBackupName stem s2.2.1
          intro hcontra
          exact hts (List.mem_map.2 ⟨s2, hs2, hcontra.symm⟩)
        · exact hfresh b h1 s2 (List.mem_cons_of_mem _ hs2)
      case hlt2 =>
        intro b hb hm
        rcases mem_createBackup_some hb with h1 | h1
        · rw [h1]
          show f.mtime < nm
          exact hfm
        · have h2 := hlt b h1 hm
          have hfm2 : f.mtime < nm := hfm
          show b.mtime < nm
          omega
      case hnd2 =>
        rw [hstep]
        apply List.Nodup.sublist ((List.take_sublist _ _).map BackupFile.name)
        rw [List.map_cons, List.nodup_cons]
        refine ⟨?_, hnd⟩
        intro hmem
        obtain ⟨y, hy, hyname⟩ := List.mem_map.1 hmem
        exact hKname y hy hyname
      case hsorted2 =>
        rw [hstep]
        apply List.Pairwise.sublist (List.take_sublist _ _)
        rw [List.pairwise_cons]
        exact ⟨hKlt, hsorted⟩
      case hlen2 =>
        rw [hstep, List.length_take]
        exact Nat.min_le_left _ _

/-- C8: starting from a backup directory with no backups of this stem, after
`N > 7` successive snapshot-producing saves to the same logical file — with
fresh timestamped names and modification times that strictly increase along
the run, as on a real filesystem — exactly `MAX_BACKUPS = 7` backups of that
stem remain, and they are the snapshots of the 7 most recent saves, newest
first (i.e. the 7 most recent by modification time). -/
theorem backup_retention (stem : String) (f0 : FileSt) (dir0 : List BackupFile)
    (svs : List (JsonData × String × Nat))
    (hN : 7 < svs.length)
    (hnomatch : dir0.filter (fun b => matchesStem stem b.name) = [])
    (hfresh : ∀ b ∈ dir0, ∀ s ∈ svs, b.name ≠ mkBackupName stem s.2.1)
    (hnodup : (svs.map (fun s => mkBackupName stem s.2.1)).Nodup)
    (hchain : List.Chain (fun a b => a < b) f0.mtime (svs.map (fun s => s.2.2))) :
    ((runSaves stem (some f0) dir0 svs).2.filter
        (fun b => matchesStem stem b.name) =
      (snapshotsOf stem (some f0) svs).reverse.take MAX_BACKUPS)
  ∧ ((runSaves stem (some f0) dir0 svs).2.filter
        (fun b => matchesStem stem b.name)).length = MAX_BACKUPS := by
  have hall : ∀ b ∈ dir0, matchesStem stem b.name = true → False := by
    intro b hb hm
    have : b ∈ dir0.filter (fun b => matchesStem stem b.name) :=
      List.mem_filter.2 ⟨hb, hm⟩
    rw [hnomatch] at this
    cases this
  have h := runSaves_matching stem svs f0 dir0 hfresh hnodup hchain
    (fun b hb hm => absurd hm (fun hm2 => hall b hb hm2))
    (by rw [hnomatch]; simp)
    (by rw [hnomatch]; exact List.Pairwise.nil)
    (by rw [hnomatch]; simp [MAX_BACKUPS])
  rw [hnomatch, List.append_nil] at h
  refine ⟨h, ?_⟩
  rw [h, List.length_take, List.length_reverse, snapshotsOf_length]
  have h7 : MAX_BACKUPS = 7 := rfl
  rw [h7]
  omega

/-- A concrete run of eight saves to the tasks file. -/
def c8Saves : List (JsonData × String × Nat) :=
  [ (JsonData.val (PyVal.list []), "t1", 1),
    (JsonData.val (PyVal.list []), "t2", 2),
    (JsonData.val (PyVal.list []), "t3", 3),
    (JsonData.val (PyVal.list []), "t4", 4),
    (JsonData.val (PyVal.list []), "t5", 5),
    (JsonData.val (PyVal.list []), "t6", 6),
    (JsonData.val (PyVal.list []), "t7", 7),
    (JsonData.val (PyVal.list []), "t8", 8) ]

/-- Witness for `backup_retention`: after eight successive saves to the
tasks file starting from an empty backup directory, exactly seven backups of
that stem remain. -/
theorem backup_retention_witness :
    ((runSaves "tasks" (some ⟨JsonData.val (PyVal.list []), 0⟩) [] c8Saves).2.filter
        (fun b => matchesStem "tasks" b.name)).length = MAX_BACKUPS := by
  exact (backup_retention "tasks" ⟨JsonData.val (PyVal.list []), 0⟩ [] c8Saves
    (by simp [c8Saves])
    rfl
    (by intro b hb; cases hb)
    (by simp [c8Saves, mkBackupName, backupMark])
    (by simp [c8Saves, List.chain_cons])).2

/-! ### The stored task collection and upsert-by-id
(`StorageManager.save_task`, `src/data/storage.py:194-212`;
`Task.to_dict` / `Task.from_dict`, `src/models/task.py:170-221`) -/

/-- A checklist item record: the fields of `ChecklistItem.to_dict`
(`src/models/task.py:22-28`), which are exactly the attributes
`ChecklistItem.__init__` stores. -/
structure ChecklistItemRec where
  id : String
  text : String
  completed : Bool
deriving DecidableEq

/-- A task record: the nineteen fields of `Task.to_dict`
(`src/models/task.py:170-192`), which are exactly the attributes
`Task.__init__` stores.  Python floats (`estimated_hours`/`actual_hours`)
are modelled as rationals; they pass through save/load untouched. -/
structure TaskRec where
  id : String
  project_id : Option String
  title : String
  description : String
  status : String
  priority : String
  created_at : String
  updated_at : String
  due_date : Option String
  completed_at : Option String
  estimated_hours : Option Rat
  actual_hours : Option Rat
  tags : List String
  checklist : List ChecklistItemRec
  blocked_reason : Option String
  dependencies : List String
  timer_running : Bool
  timer_start_time : Option String
  timer_elapsed_seconds : Int
deriving DecidableEq

/-- `ChecklistItem.from_dict(data)` (`src/models/task.py:30-37`) followed by
`__init__`: `item_id or str(uuid.uuid4())` — `fresh` is the uuid Python
would generate, used only when the stored id is falsy (the empty string). -/
def ChecklistItemRec.fromDict (fresh : String) (d : ChecklistItemRec) :
    ChecklistItemRec :=
  { id := if d.id = "" then fresh else d.id
    text := d.text
    completed := d.completed }

/-- The checklist comprehension of `Task.from_dict`
(`src/models/task.py:197-199`), with `itemFresh i` the uuid generated for
the `i`-th item when its stored id is falsy. -/
def checklistFromDict (itemFresh : Nat → String) :
    Nat → List ChecklistItemRec → List ChecklistItemRec
  | _, [] => []
  | i, c :: rest =>
      ChecklistItemRec.fromDict (itemFresh i) c ::
        checklistFromDict itemFresh (i + 1) rest

/-- `Task.from_dict(data)` (`src/models/task.py:194-221`) followed by
`Task.__init__` (`src/models/task.py:43-83`): the stored record's fields,
with Python `x or default` applied — `task_id or str(uuid.uuid4())`,
`created_at or now`, `updated_at or now`, `tags or []`, `checklist or []`,
`dependencies or []` (on lists, `l or []` is the identity). -/
def TaskRec.fromDict (freshId now : String) (itemFresh : Nat → String)
    (d : TaskRec) : TaskRec :=
  { id := if d.id = "" then freshId else d.id
    project_id := d.project_id
    title := d.title
    description := d.description
    status := d.status
    priority := d.priority
    created_at := if d.created_at = "" then now else d.created_at
    updated_at := if d.updated_at = "" then now else d.updated_at
    due_date := d.due_date
    completed_at := d.completed_at
    estimated_hours := d.estimated_hours
    actual_hours := d.actual_hours
    tags := if d.tags.isEmpty then [] else d.tags
    checklist :=
      (fun cl => if cl.isEmpty then [] else cl)
        (checklistFromDict itemFresh 0 d.checklist)
    blocked_reason := d.blocked_reason
    dependencies := if d.dependencies.isEmpty then [] else d.dependencies
    timer_running := d.timer_running
    timer_start_time := d.timer_start_time
    timer_elapsed_seconds := d.timer_elapsed_seconds }

/-- `ChecklistItem.to_dict` (`src/models/task.py:22-28`). -/
def ChecklistItemRec.toDict (c : ChecklistItemRec) : ChecklistItemRec :=
  { id := c.id, text := c.text, completed := c.completed }

/-- `Task.to_dict` (`src/models/task.py:170-192`): the dict of all nineteen
attributes, with the checklist serialized item by item. -/
def TaskRec.toDict (t : TaskRec) : TaskRec :=
  { id := t.id
    project_id := t.project_id
    title := t.title
    description := t.description
    status := t.status
    priority := t.priority
    created_at := t.created_at
    updated_at := t.updated_at
    due_date := t.due_date
    completed_at := t.completed_at
    estimated_hours := t.estimated_hours
    actual_hours := t.actual_hours
    tags := t.tags
    checklist := t.checklist.map ChecklistItemRec.toDict
    blocked_reason := t.blocked_reason
    dependencies := t.dependencies
    timer_running := t.timer_running
    timer_start_time := t.timer_start_time
    timer_elapsed_seconds := t.timer_elapsed_seconds }

/-- The update-or-append loop of `save_task` (`src/data/storage.py:199-208`):
replace the first entry whose id matches, otherwise append at the end. -/
def upsertById : List TaskRec → TaskRec → List TaskRec
  | [], t => [t]
  | x :: xs, t => if x.id = t.id then t :: xs else x :: upsertById xs t

/-- `[Task.from_dict(t) for t in data]` (`get_all_tasks`,
`src/data/storage.py:176-179`), with per-record fresh-value streams. -/
def readTaskRecords (freshIds : Nat → String) (now : String)
    (itemFresh : Nat → Nat → String) : Nat → List TaskRec → List TaskRec
  | _, [] => []
  | i, d :: rest =>
      TaskRec.fromDict (freshIds i) now (itemFresh i) d ::
        readTaskRecords freshIds now itemFresh (i + 1) rest

/-- The collection-content transformation of `save_task(task)`
(`src/data/storage.py:194-212`): parse every stored record, upsert the task
by id, serialize every record back.  (The snapshot/atomic-write side of
`save_task` is `saveTaskFS`; `json.dump` is deterministic, so equal record
lists give byte-identical files.) -/
def saveTaskFile (file : List TaskRec) (t : TaskRec) (freshIds : Nat → String)
    (now : String) (itemFresh : Nat → Nat → String) : List TaskRec :=
  (upsertById (readTaskRecords freshIds now itemFresh 0 file) t).map TaskRec.toDict

/-- A well-formed stored task record: its id and timestamps are non-empty
strings and every checklist item has a non-empty id — true of everything the
application itself writes (ids are uuid4 strings, timestamps are
`isoformat()` strings), so the Python-falsy regeneration branches are dead. -/
def GoodTaskRec (t : TaskRec) : Prop :=
  t.id ≠ "" ∧ t.created_at ≠ "" ∧ t.updated_at ≠ "" ∧ ∀ c ∈ t.checklist, c.id ≠ ""

instance : DecidablePred GoodTaskRec := fun t => by
  rw [GoodTaskRec]
  infer_instance

theorem listOrEmpty_eq_self {α : Type} (l : List α) :
    (if l.isEmpty then ([] : List α) else l) = l := by
  cases l <;> rfl

theorem checklistItemToDict_eq_self (c : ChecklistItemRec) : c.toDict = c := by
  cases c; rfl

theorem taskRecToDict_eq_self (t : TaskRec) : t.toDict = t := by
  cases t
  rw [TaskRec.toDict]
  congr 1
  induction ‹List ChecklistItemRec› with
  | nil => rfl
  | cons c rest ih => rw [List.map_cons, checklistItemToDict_eq_self, ih]

theorem checklistFromDict_eq_self (itemFresh : Nat → String)
    (l : List ChecklistItemRec) (h : ∀ c ∈ l, c.id ≠ "") :
    ∀ i, checklistFromDict itemFresh i l = l := by
  induction l with
  | nil => intro i; rfl
  | cons c rest ih =>
      intro i
      rw [checklistFromDict, ChecklistItemRec.fromDict,
        if_neg (h c (List.mem_cons_self _ _)),
        ih (fun c2 hc2 => h c2 (List.mem_cons_of_mem _ hc2)) (i + 1)]

theorem TaskRec.fromDict_eq_self (freshId now : String) (itemFresh : Nat → String)
    (t : TaskRec) (h : GoodTaskRec t) : TaskRec.fromDict freshId now itemFresh t = t := by
  obtain ⟨h1, h2, h3, h4⟩ := h
  rw [TaskRec.fromDict, if_neg h1, if_neg h2, if_neg h3,
    checklistFromDict_eq_self itemFresh t.checklist h4 0]
  simp only [listOrEmpty_eq_self]

theorem readTaskRecords_eq_self (freshIds : Nat → String) (now : String)
    (itemFresh : Nat → Nat → String) (l : List TaskRec)
    (h : ∀ d ∈ l, GoodTaskRec d) : ∀ i, readTaskRecords freshIds now itemFresh i l = l := by
  induction l with
  | nil => intro i; rfl
  | cons d rest ih =>
      intro i
      rw [readTaskRecords, TaskRec.fromDict_eq_self _ _ _ d (h d (List.mem_cons_self _ _)),
        ih (fun d2 hd2 => h d2 (List.mem_cons_of_mem _ hd2)) (i + 1)]

theorem map_toDict_eq_self (l : List TaskRec) : l.map TaskRec.toDict = l := by
  induction l with
  | nil => rfl
  | cons d rest ih => rw [List.map_cons, taskRecToDict_eq_self, ih]

/-- On well-formed stored records, `save_task`'s file transformation is
exactly the upsert-by-id on the stored list. -/
theorem saveTaskFile_eq_upsert (file : List TaskRec) (t : TaskRec)
    (freshIds : Nat → String) (now : String) (itemFresh : Nat → Nat → String)
    (h : ∀ d ∈ file, GoodTaskRec d) :
    saveTaskFile file t freshIds now itemFresh = upsertById file t := by
  rw [saveTaskFile, readTaskRecords_eq_self _ _ _ _ h 0, map_toDict_eq_self]

theorem mem_upsertById {l : List TaskRec} {t x : TaskRec}
    (h : x ∈ upsertById l t) : x ∈ l ∨ x = t := by
  induction l with
  | nil =>
      rw [upsertById] at h
      rcases List.mem_singleton.1 h with h1
      exact Or.inr h1
  | cons y ys ih =>
      rw [upsertById] at h
      by_cases hy : y.id = t.id
      · rw [if_pos hy] at h
        rcases List.mem_cons.1 h with h1 | h1
        · exact Or.inr h1
        · exact Or.inl (List.mem_cons_of_mem _ h1)
      · rw [if_neg hy] at h
        rcases List.mem_cons.1 h with h1 | h1
        · exact Or.inl (h1 ▸ List.mem_cons_self _ _)
        · rcases ih h1 with h2 | h2
          · exact Or.inl (List.mem_cons_of_mem _ h2)
          · exact Or.inr h2

theorem upsertById_get_preserve (l : List TaskRec) (t : TaskRec) :
    ∀ i d, l.get? i = some d → d.id ≠ t.id → (upsertById l t).get? i = some d := by
  induction l with
  | nil => intro i d h; rw [List.get?_nil] at h; cases h
  | cons x xs ih =>
      intro i d h hne
      rw [upsertById]
      by_cases hx : x.id = t.id
      · rw [if_pos hx]
        cases i with
        | zero =>
            rw [List.get?_cons_zero] at h
            cases Option.some.inj h
            exact absurd hx hne
        | succ j =>
            rw [List.get?_cons_succ] at h ⊢
            exact h
      · rw [if_neg hx]
        cases i with
        | zero => exact h
        | succ j =>
            rw [List.get?_cons_succ] at h ⊢
            exact ih j d h hne

theorem upsertById_replace (l : List TaskRec) (t : TaskRec)
    (h : ∃ d ∈ l, d.id = t.id) :
    (∃ i d, l.get? i = some d ∧ d.id = t.id ∧ (upsertById l t).get? i = some t)
      ∧ (upsertById l t).length = l.length := by
  induction l with
  | nil =>
      obtain ⟨d, hd, _⟩ := h
      cases hd
  | cons x xs ih =>
      rw [upsertById]
      by_cases hx : x.id = t.id
      · rw [if_pos hx]
        exact ⟨⟨0, x, rfl, hx, rfl⟩, by rw [List.length_cons, List.length_cons]⟩
      · rw [if_neg hx]
        have h2 : ∃ d ∈ xs, d.id = t.id := by
          obtain ⟨d, hd, hid⟩ := h
          rcases List.mem_cons.1 hd with h3 | h3
          · exact absurd (h3 ▸ hid) hx
          · exact ⟨d, h3, hid⟩
        obtain ⟨⟨i, d, hget, hid, hres⟩, hlen⟩ := ih h2
        refine ⟨⟨i + 1, d, ?_, hid, ?_⟩, ?_⟩
        · rw [List.get?_cons_succ]; exact hget
        · rw [List.get?_cons_succ]; exact hres
        · rw [List.length_cons, List.length_cons, hlen]

theorem upsertById_append (l : List TaskRec) (t : TaskRec)
    (h : ∀ d ∈ l, d.id ≠ t.id) : upsertById l t = l ++ [t] := by
  induction l with
  | nil => rfl
  | cons x xs ih =>
      rw [upsertById, if_neg (h x (List.mem_cons_self _ _)),
        ih (fun d hd => h d (List.mem_cons_of_mem _ hd)), List.cons_append]

theorem upsertById_count (l : List TaskRec) (t : TaskRec)
    (hnd : (l.map TaskRec.id).Nodup) :
    ((upsertById l t).filter (fun d => decide (d.id = t.id))).length = 1 := by
  induction l with
  | nil => simp [upsertById]
  | cons x xs ih =>
      rw [List.map_cons, List.nodup_cons] at hnd
      obtain ⟨hx, hxs⟩ := hnd
      rw [upsertById]
      by_cases hxt : x.id = t.id
      · rw [if_pos hxt, List.filter_cons]
        have ht : decide (t.id = t.id) = true := by simp
        rw [ht, if_pos rfl, List.length_cons]
        have hzero : xs.filter (fun d => decide (d.id = t.id)) = [] := by
          rw [List.filter_eq_nil_iff]
          intro d hd
          simp only [decide_eq_true_eq]
          intro hcontra
          exact hx (List.mem_map.2 ⟨d, hd, by rw [hcontra, ← hxt]⟩)
        rw [hzero]
        rfl
      · rw [if_neg hxt, List.filter_cons]
        have hxf : decide (x.id = t.id) = false := by
          simp only [decide_eq_false_iff_not]
          exact hxt
        rw [hxf]
        simp only [Bool.false_eq_true, if_false]
        exact ih hxs

theorem upsertById_idem (l : List TaskRec) (t : TaskRec) :
    upsertById (upsertById l t) t = upsertById l t := by
  induction l with
  | nil =>
      rw [upsertById, upsertById, if_pos rfl]
  | cons x xs ih =>
      rw [upsertById]
      by_cases hx : x.id = t.id
      · rw [if_pos hx, upsertById, if_pos rfl]
      · rw [if_neg hx, upsertById, if_neg hx, ih]

/-- C7: `save_task` is an upsert by id on the stored collection (stated for
well-formed stored records with distinct ids, which is what the application
itself maintains): if a record with the task's id exists, it is replaced at
its existing position and every other record keeps its position and content;
otherwise the task is appended at the end.  Consequently the saved id occurs
exactly once afterwards, and saving the same unchanged entity again
reproduces the exact same record list — with `json.dump` deterministic, a
byte-identical file. -/
theorem saveTask_upsert_correct (file : List TaskRec) (t : TaskRec)
    (fresh1 : Nat → String) (now1 : String) (g1 : Nat → Nat → String)
    (fresh2 : Nat → String) (now2 : String) (g2 : Nat → Nat → String)
    (hfile : ∀ d ∈ file, GoodTaskRec d) (ht : GoodTaskRec t)
    (hnd : (file.map TaskRec.id).Nodup) :
    (∀ i d, file.get? i = some d → d.id ≠ t.id →
       (saveTaskFile file t fresh1 now1 g1).get? i = some d)
  ∧ ((∃ d ∈ file, d.id = t.id) →
       (∃ i d, file.get? i = some d ∧ d.id = t.id ∧
          (saveTaskFile file t fresh1 now1 g1).get? i = some t)
         ∧ (saveTaskFile file t fresh1 now1 g1).length = file.length)
  ∧ ((∀ d ∈ file, d.id ≠ t.id) →
       saveTaskFile file t fresh1 now1 g1 = file ++ [t])
  ∧ (((saveTaskFile file t fresh1 now1 g1).filter
        (fun d => decide (d.id = t.id))).length = 1)
  ∧ (saveTaskFile (saveTaskFile file t fresh1 now1 g1) t fresh2 now2 g2 =
       saveTaskFile file t fresh1 now1 g1) := by
  have heq := saveTaskFile_eq_upsert file t fresh1 now1 g1 hfile
  refine ⟨?_, ?_, ?_, ?_, ?_⟩
  · intro i d h hne
    rw [heq]
    exact upsertById_get_preserve file t i d h hne
  · intro hex
    rw [heq]
    exact upsertById_replace file t hex
  · intro hnone
    rw [heq]
    exact upsertById_append file t hnone
  · rw [heq]
    exact upsertById_count file t hnd
  · rw [heq]
    have hgood2 : ∀ d ∈ upsertById file t, GoodTaskRec d := by
      intro d hd
      rcases mem_upsertById hd with h1 | h1
      · exact hfile d h1
      · exact h1 ▸ ht
    rw [saveTaskFile_eq_upsert _ _ _ _ _ hgood2, upsertById_idem]

/-- A minimal well-formed task record. -/
def simpleTask (tid title : String) : TaskRec :=
  ⟨tid, Option.none, title, "", "todo", "medium", "2024-01-01T00:00:00",
   "2024-01-01T00:00:00", Option.none, Option.none, Option.none, Option.none,
   [], [], Option.none, [], false, Option.none, 0⟩

/-- Witness for `saveTask_upsert_correct`: saving a modified "b" task into a
two-record collection leaves exactly one "b" record, and saving it a second
time reproduces the identical record list. -/
theorem saveTask_upsert_correct_witness :
    ((saveTaskFile [simpleTask "a" "Design", simpleTask "b" "Build"]
        (simpleTask "b" "Build v2") (fun _ => "u") "2024-02-01" (fun _ _ => "u")).filter
        (fun d => decide (d.id = (simpleTask "b" "Build v2").id))).length = 1
  ∧ saveTaskFile (saveTaskFile [simpleTask "a" "Design", simpleTask "b" "Build"]
        (simpleTask "b" "Build v2") (fun _ => "u") "2024-02-01" (fun _ _ => "u"))
        (simpleTask "b" "Build v2") (fun _ => "w") "2024-03-01" (fun _ _ => "w") =
      saveTaskFile [simpleTask "a" "Design", simpleTask "b" "Build"]
        (simpleTask "b" "Build v2") (fun _ => "u") "2024-02-01" (fun _ _ => "u") := by
  have h := saveTask_upsert_correct [simpleTask "a" "Design", simpleTask "b" "Build"]
    (simpleTask "b" "Build v2") (fun _ => "u") "2024-02-01" (fun _ _ => "u")
    (fun _ => "w") "2024-03-01" (fun _ _ => "w")
    (by
      intro d hd
      fin_cases hd <;>
        exact ⟨by decide, by decide, by decide, by intro c hc; cases hc⟩)
    ⟨by decide, by decide, by decide, by intro c hc; cases hc⟩
    (by decide)
  exact ⟨h.2.2.2.1, h.2.2.2.2⟩
